import Mathlib

/-!
# Verification of the URL shortener service

A shallow embedding, in Lean 4, of the core logic of the URL-shortener
repository (Express + SQLite + Redis version, `src/index.ts`):

* the short-code generator (`generateCode`),
* the URL normalizer/validator (`normalizeUrl`, on top of a model of the
  WHATWG URL parser used via `new URL(...)`),
* the persistent store operations (prepared SQL statements on the `urls`
  table), the Redis cache helpers, and
* the HTTP route handlers `POST /shorten`, `GET /:code`, `GET /stats`,
  `GET /stats/:code`, `DELETE /stats/:code`.

Strings are modelled as `List Char` internally; machine-level details that
cannot matter at the granularity of the properties proved here (UTF-16 vs
UTF-8 code units, SQLite storage classes) are elided.  Randomness
(`crypto.randomBytes`) is modelled by passing the drawn bytes, and the
candidate codes derived from them, explicitly as inputs.
-/

set_option autoImplicit false

namespace UrlShortener

/-! ## Basic character/string helpers -/

/-- ASCII whitespace, as trimmed by the JavaScript method
`String.prototype.trim` (restricted to the ASCII range: space, tab, LF,
VT, FF, CR). -/
def isWsChar (c : Char) : Bool :=
  decide (c ∈ [' ', '\t', '\n', '\x0b', '\x0c', '\r'])

/-- Model of `String.prototype.trim`: strip leading and trailing whitespace. -/
def jsTrim (l : List Char) : List Char :=
  ((l.dropWhile isWsChar).reverse.dropWhile isWsChar).reverse

/-! ## Code generator

`src/index.ts`:
```
function generateCode(): string {
  return crypto.randomBytes(4).toString("base64url").slice(0, 6);
}
```
The four random bytes are made explicit inputs. -/

/-- The 64-symbol URL-safe base64 alphabet used by Node's
`Buffer.toString("base64url")`. -/
def base64urlAlphabet : List Char :=
  "ABCDEFGHIJKLMNOPQRSTUVWXYZabcdefghijklmnopqrstuvwxyz0123456789-_".data

/-- Symbol number `i` (0 ≤ i < 64) of the base64url alphabet. -/
def alphaChar (i : Nat) : Char :=
  base64urlAlphabet.getD i 'A'

/-- Node's `base64url` encoding of a byte sequence (no padding): groups of
three bytes become four symbols; a trailing group of one or two bytes
becomes two or three symbols. -/
def b64urlEncode : List Nat → List Char
  | [] => []
  | [b0] => [alphaChar (b0 / 4), alphaChar (b0 % 4 * 16)]
  | [b0, b1] =>
      [alphaChar (b0 / 4), alphaChar (b0 % 4 * 16 + b1 / 16),
       alphaChar (b1 % 16 * 4)]
  | b0 :: b1 :: b2 :: rest =>
      alphaChar (b0 / 4) :: alphaChar (b0 % 4 * 16 + b1 / 16) ::
      alphaChar (b1 % 16 * 4 + b2 / 64) :: alphaChar (b2 % 64) ::
      b64urlEncode rest

/-- `generateCode`, with the output of `crypto.randomBytes(4)` passed in as
the list `bytes` (each entry a byte value < 256).  The source encodes the
four bytes as base64url and keeps the first six characters. -/
def generateCode (bytes : List Nat) : List Char :=
  (b64urlEncode bytes).take 6

/-! ## Model of the WHATWG URL parser (`new URL(...)` / `.href`)

`normalizeUrl` in `src/index.ts` delegates parsing and canonicalization to
Node's built-in WHATWG `URL` class.  The model below follows the WHATWG
basic URL parser for URLs with an authority (the only kind `normalizeUrl`
ever constructs, since its input always begins with `http://`, `https://`,
or has `https://` prepended):

* scheme: leading run of scheme characters, first alphabetic, then `:`;
  lowercased;
* after the `:`, any run of `/` or `\` is skipped, then the authority runs
  up to the first `/`, `\`, `?` or `#`;
* everything before the last `@` of the authority is userinfo;
* host: up to the first `:`, must be non-empty and contain no forbidden
  host character; lowercased;
* port: decimal digits, ≤ 65535, leading zeros stripped, dropped when it
  is the scheme's default port; any non-digit makes the whole parse fail;
* path: from the terminating slash up to `?`/`#`, with `\` rewritten to
  `/`; empty path serializes as `/`;
* query: after `?`, up to `#`; fragment: everything after the first `#`.

Not modelled (irrelevant to the properties proved here): percent
encoding/decoding, IDNA/punycode hosts, IPv6 bracket hosts, dot-segment
(`.`/`..`) path normalization, and stripping of embedded tab/newline
characters. -/

/-- Characters allowed in a URL scheme. -/
def isSchemeChar (c : Char) : Bool :=
  c.isAlpha || c.isDigit || c = '+' || c = '-' || c = '.'

/-- The characters `/` and `\` (for special schemes the WHATWG parser
treats both alike). -/
def isSlashChar (c : Char) : Bool :=
  decide (c ∈ ['/', '\\'])

/-- A character terminating the authority component. -/
def isAuthorityEnd (c : Char) : Bool :=
  decide (c ∈ ['/', '\\', '?', '#'])

/-- The WHATWG forbidden host code points (ASCII range), plus `%`
(percent-decoding in hosts is not modelled). -/
def forbiddenHostChar (c : Char) : Bool :=
  decide (c ∈ ['\x00', '\t', '\n', '\r', ' ', '#', '/', ':', '<', '>', '?', '@',
               '[', '\\', ']', '^', '|', '%'])

/-- A character terminating the path component (`?` or `#`). -/
def isPathEnd (c : Char) : Bool :=
  decide (c ∈ ['?', '#'])

/-- Rewrite `\` to `/` (WHATWG path handling for special schemes). -/
def bslashFix (c : Char) : Char :=
  if c = '\\' then '/' else c

/-- Split a list at the LAST occurrence of `c`: returns the parts before
and after that occurrence, or `none` when `c` does not occur. -/
def splitLast (c : Char) : List Char → Option (List Char × List Char)
  | [] => none
  | x :: xs =>
    match splitLast c xs with
    | some (a, b) => some (x :: a, b)
    | none => if x = c then some ([], xs) else none

/-- Numeric value of a decimal digit string. -/
def digitsVal (l : List Char) : Nat :=
  l.foldl (fun a c => 10 * a + (c.toNat - 48)) 0

/-- Strip leading zeros from a digit string (a run of only zeros becomes
`"0"`). -/
def stripZeros (l : List Char) : List Char :=
  match l.dropWhile (fun c => c = '0') with
  | [] => if l = [] then [] else ['0']
  | r => r

/-- Default ports of the WHATWG special schemes. -/
def defaultPort (scheme : List Char) : Option Nat :=
  if scheme = "http".data then some 80
  else if scheme = "https".data then some 443
  else if scheme = "ws".data then some 80
  else if scheme = "wss".data then some 443
  else if scheme = "ftp".data then some 21
  else none

/-- The components of a successfully parsed URL.  `userinfo = []` and
`port = []` mean the component is absent; the port is kept as its
canonical digit string. -/
structure UrlParts where
  scheme : List Char
  userinfo : List Char
  host : List Char
  port : List Char
  path : List Char
  query : Option (List Char)
  fragment : Option (List Char)
  deriving Repr, DecidableEq

/-- Parse a fragment: the part after a leading `#`, if any. -/
def parseFrag : List Char → Option (List Char)
  | '#' :: r => some r
  | _ => none

/-- Parse query and fragment from the remainder after the path. -/
def parseQF : List Char → Option (List Char) × Option (List Char)
  | '?' :: r =>
      (some (r.takeWhile (fun c => c ≠ '#')),
       parseFrag (r.dropWhile (fun c => c ≠ '#')))
  | '#' :: r => (none, some r)
  | _ => (none, none)

/-- Parse path, query and fragment from the remainder after the
authority (a list starting with `/`, `\`, `?`, `#`, or empty). -/
def parsePathQF (l : List Char) : List Char × Option (List Char) × Option (List Char) :=
  let p := (l.takeWhile (fun c => !isPathEnd c)).map bslashFix
  let qf := parseQF (l.dropWhile (fun c => !isPathEnd c))
  (if p = [] then ['/'] else p, qf.1, qf.2)

/-- Parse the port from the remainder of the authority after the host
(`some []` = no port; `none` = invalid URL). -/
def parsePort (scheme : List Char) : List Char → Option (List Char)
  | [] => some []
  | ':' :: ds =>
      if ds.all Char.isDigit then
        if ds = [] then some []
        else if digitsVal ds ≤ 65535 then
          if defaultPort scheme = some (digitsVal ds) then some []
          else some (stripZeros ds)
        else none
      else none
  | _ => none

/-- Parse and validate host and port out of the part of the authority
after the userinfo. -/
def parseHostPort (scheme hostport : List Char) : Option (List Char × List Char) :=
  let host := hostport.takeWhile (fun c => c ≠ ':')
  let rest := hostport.dropWhile (fun c => c ≠ ':')
  if host = [] then none
  else if host.any forbiddenHostChar then none
  else
    match parsePort scheme rest with
    | none => none
    | some p => some (host.map Char.toLower, p)

/-- Split the authority at the LAST `@` into userinfo and host-port
(userinfo empty when there is no `@`). -/
def splitUserinfo (auth : List Char) : List Char × List Char :=
  match splitLast '@' auth with
  | some ab => ab
  | none => ([], auth)

/-- Model of `new URL(s)` (for URLs with an authority): `some` of the
parsed components, `none` when the constructor would throw. -/
def parseUrl (s : List Char) : Option UrlParts :=
  match s.takeWhile isSchemeChar, s.dropWhile isSchemeChar with
  | c :: cs, ':' :: rest1 =>
    if c.isAlpha then
      let scheme := (c :: cs).map Char.toLower
      let rest2 := rest1.dropWhile isSlashChar
      let auth := rest2.takeWhile (fun a => !isAuthorityEnd a)
      let rest3 := rest2.dropWhile (fun a => !isAuthorityEnd a)
      let uihp := splitUserinfo auth
      match parseHostPort scheme uihp.2 with
      | none => none
      | some hp =>
        let pqf := parsePathQF rest3
        some ⟨scheme, uihp.1, hp.1, hp.2, pqf.1, pqf.2.1, pqf.2.2⟩
    else none
  | _, _ => none

/-- Serialization of the userinfo component (with its `@`, when
present). -/
def uinfoPart (ui : List Char) : List Char :=
  if ui = [] then [] else ui ++ ['@']

/-- Serialization of the port component (with its `:`, when present). -/
def portPart (port : List Char) : List Char :=
  if port = [] then [] else ':' :: port

/-- Serialization of the query component (with its `?`, when present). -/
def queryPart : Option (List Char) → List Char
  | none => []
  | some q => '?' :: q

/-- Serialization of the fragment component (with its `#`, when
present). -/
def fragPart : Option (List Char) → List Char
  | none => []
  | some f => '#' :: f

/-- Model of `URL.prototype.href`: the canonical serialization of the
parsed components. -/
def hrefList (u : UrlParts) : List Char :=
  u.scheme ++ [':', '/', '/'] ++
  uinfoPart u.userinfo ++
  u.host ++
  portPart u.port ++
  u.path ++
  queryPart u.query ++
  fragPart u.fragment

/-- Well-formedness of parsed URL components, as established by
`parseUrl` for every successful parse.  These invariants are what make
reparsing a serialized URL the identity (idempotence of `href`). -/
def WfParts (p : UrlParts) : Prop :=
  (∀ c ∈ p.userinfo, isAuthorityEnd c = false) ∧
  p.host ≠ [] ∧
  (∀ c ∈ p.host, forbiddenHostChar c = false) ∧
  p.host.map Char.toLower = p.host ∧
  (∀ c ∈ p.port, c.isDigit = true) ∧
  digitsVal p.port ≤ 65535 ∧
  (p.port ≠ [] → defaultPort p.scheme ≠ some (digitsVal p.port)) ∧
  stripZeros p.port = p.port ∧
  (∃ r, p.path = '/' :: r) ∧
  (∀ c ∈ p.path, isPathEnd c = false ∧ c ≠ '\\') ∧
  (∀ q, p.query = some q → ∀ c ∈ q, ¬(c = '#'))

/-! ## The URL normalizer/validator

`src/index.ts`:
```
function normalizeUrl(url: string): string | null {
  const withProtocol = /^https?:\/\//i.test(url) ? url : `https://${url}`;
  try {
    const parsed = new URL(withProtocol);
    if (parsed.protocol !== "http:" && parsed.protocol !== "https:") {
      return null;
    }
    return parsed.href;
  } catch {
    return null;
  }
}
```
-/

/-- Case-insensitive "starts with" check (model of a `/^.../i` regex
test). -/
def ciStartsWith : List Char → List Char → Bool
  | [], _ => true
  | _ :: _, [] => false
  | a :: ps, b :: ss => (a.toLower = b.toLower) && ciStartsWith ps ss

/-- Model of the regex test `/^https?:\/\//i`. -/
def hasHttpProto (s : List Char) : Bool :=
  ciStartsWith "http://".data s || ciStartsWith "https://".data s

/-- `normalizeUrl` from `src/index.ts`: prepend `https://` when the
input does not start with `http://`/`https://` (case-insensitive), parse
it as a URL, reject non-`http(s)` schemes, and return the canonical
serialization. -/
def normalizeUrl (url : List Char) : Option (List Char) :=
  let withProtocol := if hasHttpProto url then url else "https://".data ++ url
  match parseUrl withProtocol with
  | none => none
  | some parsed =>
      if parsed.scheme ≠ "http".data ∧ parsed.scheme ≠ "https".data then none
      else some (hrefList parsed)

/-! ## Persistent store (SQLite `urls` table)

```
CREATE TABLE IF NOT EXISTS urls (
  code        TEXT PRIMARY KEY,
  original_url TEXT NOT NULL,
  created_at  TEXT NOT NULL,
  visits      INTEGER NOT NULL DEFAULT 0
)
```
The table is modelled as a list of rows in insertion order; the prepared
statements of `src/index.ts` become list operations. -/

/-- A row of the `urls` table. -/
structure UrlRow where
  code : List Char
  original_url : List Char
  created_at : List Char
  visits : Nat
  deriving Repr, DecidableEq

/-- The `urls` table: rows in insertion order. -/
abbrev Store := List UrlRow

/-- `SELECT * FROM urls WHERE original_url = ?` (first matching row). -/
def findByUrl (store : Store) (u : List Char) : Option UrlRow :=
  store.find? (fun r => r.original_url = u)

/-- `SELECT * FROM urls WHERE code = ?` (first matching row). -/
def findByCode (store : Store) (c : List Char) : Option UrlRow :=
  store.find? (fun r => r.code = c)

/-- `INSERT INTO urls (code, original_url, created_at, visits) VALUES (?, ?, ?, 0)`. -/
def insertRow (store : Store) (code url createdAt : List Char) : Store :=
  store ++ [⟨code, url, createdAt, 0⟩]

/-- `SELECT * FROM urls`. -/
def listAll (store : Store) : List UrlRow :=
  store

/-- `DELETE FROM urls WHERE code = ?`: the remaining rows and the number
of rows affected (`result.changes`). -/
def deleteByCode (store : Store) (c : List Char) : Store × Nat :=
  (store.filter (fun r => r.code ≠ c), (store.filter (fun r => r.code = c)).length)

/-- `UPDATE urls SET visits = visits + 1 WHERE code = ?`. -/
def incrementVisits (store : Store) (c : List Char) : Store :=
  store.map (fun r => if r.code = c then { r with visits := r.visits + 1 } else r)

/-! ## Redis cache helpers

The cache is an association list `code ↦ originalUrl` (the Redis keys
`url:{code}`) together with the `redisConnected` flag.  `cacheGet`,
`cacheSet` and `cacheDel` are no-ops returning a miss when the flag is
false, exactly as the helpers in `src/index.ts` short-circuit on
`!redisConnected`.  Redis errors (the `catch` branches) and TTL expiry
are modelled by entries simply being absent. -/

/-- The state of the Redis cache plus the `redisConnected` flag. -/
structure CacheState where
  connected : Bool
  entries : List (List Char × List Char)
  deriving Repr, DecidableEq

/-- `cacheGet` from `src/index.ts`: `null` when disconnected, otherwise
the cached value for `url:{code}`, if any. -/
def cacheGet (cs : CacheState) (code : List Char) : Option (List Char) :=
  if cs.connected then (cs.entries.find? (fun e => e.1 = code)).map Prod.snd
  else none

/-- `cacheSet`: store `url:{code} ↦ url` (no-op when disconnected). -/
def cacheSet (cs : CacheState) (code url : List Char) : CacheState :=
  if cs.connected then
    { cs with entries := (code, url) :: cs.entries.filter (fun e => e.1 ≠ code) }
  else cs

/-- `cacheDel`: remove `url:{code}` (no-op when disconnected). -/
def cacheDel (cs : CacheState) (code : List Char) : CacheState :=
  if cs.connected then
    { cs with entries := cs.entries.filter (fun e => e.1 ≠ code) }
  else cs

/-- The full mutable state of the service: SQLite table plus Redis cache. -/
structure AppState where
  store : Store
  cache : CacheState
  deriving Repr, DecidableEq

/-! ## Route handlers -/

/-- Outcome of `POST /shorten` (the HTTP payload's `shortUrl` field is
`BASE_URL ++ "/" ++ code`, derived from the code, and is omitted).
`missingUrl` and `invalidUrl` are the two 400 responses; `existing` the
200 dedup response; `created` the 201 response.  `noFreshCode` is a model
artifact: the explicit list of candidate codes (the successive outputs of
`generateCode`) was exhausted while all of them collided — the source's
`while` loop would instead keep drawing fresh random codes. -/
inductive ShortenResult
  | missingUrl
  | invalidUrl
  | existing (code originalUrl : List Char)
  | created (code originalUrl : List Char)
  | noFreshCode
  deriving Repr, DecidableEq

/-- The collision-retry loop of `POST /shorten`:
```
let code = generateCode();
while (stmts.findByCode.get(code)) { code = generateCode(); }
```
with the stream of generated codes passed in explicitly. -/
def pickFresh (store : Store) : List (List Char) → Option (List Char)
  | [] => none
  | c :: cs => if (findByCode store c).isSome then pickFresh store cs else some c

/-- The `POST /shorten` handler.  `body` is the `url` field of the JSON
request body (`none` when absent or not a string); the guard
`!url || typeof url !== "string"` also rejects the empty string (falsy in
JavaScript).  `codes` is the stream of codes `generateCode` would
produce; `now` is `new Date().toISOString()`. -/
def postShorten (s : AppState) (body : Option (List Char))
    (codes : List (List Char)) (now : List Char) : ShortenResult × AppState :=
  match body with
  | none => (.missingUrl, s)
  | some url =>
    if url = [] then (.missingUrl, s)
    else
      match normalizeUrl (jsTrim url) with
      | none => (.invalidUrl, s)
      | some normalizedUrl =>
        match findByUrl s.store normalizedUrl with
        | some existing => (.existing existing.code normalizedUrl, s)
        | none =>
          match pickFresh s.store codes with
          | none => (.noFreshCode, s)
          | some code =>
            (.created code normalizedUrl,
             ⟨insertRow s.store code normalizedUrl now,
              cacheSet s.cache code normalizedUrl⟩)

/-- Outcome of `GET /:code`: a 302 redirect or the 404 response. -/
inductive ResolveResult
  | redirect (url : List Char)
  | notFound
  deriving Repr, DecidableEq

/-- The `GET /:code` handler (cache-aside read path): cache hit →
increment visits and redirect; miss → look up SQLite, 404 when absent,
else repopulate the cache, increment visits and redirect. -/
def getRedirect (s : AppState) (code : List Char) : ResolveResult × AppState :=
  match cacheGet s.cache code with
  | some cachedUrl =>
      (.redirect cachedUrl, ⟨incrementVisits s.store code, s.cache⟩)
  | none =>
    match findByCode s.store code with
    | none => (.notFound, s)
    | some row =>
        (.redirect row.original_url,
         ⟨incrementVisits s.store code, cacheSet s.cache code row.original_url⟩)

/-- Outcome of `DELETE /stats/:code`. -/
inductive DeleteResult
  | deleted
  | notFound
  deriving Repr, DecidableEq

/-- The `DELETE /stats/:code` handler: run `deleteByCode`; 404 when
`result.changes === 0`, otherwise invalidate the cache entry. -/
def deleteStats (s : AppState) (code : List Char) : DeleteResult × AppState :=
  let r := deleteByCode s.store code
  if r.2 = 0 then (.notFound, ⟨r.1, s.cache⟩)
  else (.deleted, ⟨r.1, cacheDel s.cache code⟩)

/-- One entry of a stats response (again without the derived `shortUrl`
field). -/
structure StatsEntry where
  code : List Char
  originalUrl : List Char
  createdAt : List Char
  visits : Nat
  deriving Repr, DecidableEq

/-- The `GET /stats` handler: map every row to its response shape. -/
def getStats (s : AppState) : List StatsEntry :=
  (listAll s.store).map (fun row => ⟨row.code, row.original_url, row.created_at, row.visits⟩)

/-- The `GET /stats/:code` handler: `none` is the 404 response. -/
def getStatsCode (s : AppState) (code : List Char) : Option StatsEntry :=
  match findByCode s.store code with
  | none => none
  | some row => some ⟨row.code, row.original_url, row.created_at, row.visits⟩

/-! ## Single-threaded executions -/

/-- One request, with all nondeterminism (request payloads, generated
codes, the current time) packaged into the operation. -/
inductive Op
  | shorten (body : Option (List Char)) (codes : List (List Char)) (now : List Char)
  | redirect (code : List Char)
  | remove (code : List Char)
  | stats
  | statsOne (code : List Char)

/-- The state after handling one request. -/
def applyOp (s : AppState) : Op → AppState
  | .shorten body codes now => (postShorten s body codes now).2
  | .redirect code => (getRedirect s code).2
  | .remove code => (deleteStats s code).2
  | .stats => s
  | .statsOne _ => s

/-- Run a sequence of requests. -/
def runOps (s : AppState) (ops : List Op) : AppState :=
  ops.foldl applyOp s

/-- The startup state: empty table (fresh database), empty cache, with
the `redisConnected` flag as determined by whether Redis is present. -/
def initState (connected : Bool) : AppState :=
  ⟨[], ⟨connected, []⟩⟩

/-- States reachable by some single-threaded sequence of requests from
startup. -/
def Reachable (s : AppState) : Prop :=
  ∃ connected ops, s = runOps (initState connected) ops

/-- When Redis is connected, every cache entry is backed by a row of the
`urls` table with the same code.  (Holds in every single-threaded
execution; the connectivity flag is fixed per run.) -/
def CacheCoherent (s : AppState) : Prop :=
  s.cache.connected = true →
    ∀ kv ∈ s.cache.entries, (findByCode s.store kv.1).isSome = true

/-- A sample row, used to instantiate universally quantified theorems at
a concrete state. -/
def sampleRow : UrlRow :=
  ⟨"abc123".data, "https://example.com/".data, "t0".data, 0⟩

/-- A sample one-row state with no cache. -/
def sampleState : AppState :=
  ⟨[sampleRow], ⟨false, []⟩⟩

/-! ## General helper lemmas -/

theorem charOfNatAux_toNat (n : Nat) (h : n.isValidChar) :
    (Char.ofNatAux n h).toNat = n := by
  simp [Char.ofNatAux, Char.toNat, UInt32.toNat]

theorem toLower_eq_self (c : Char) (h : ¬(c.toNat ≥ 65 ∧ c.toNat ≤ 90)) :
    c.toLower = c := by
  unfold Char.toLower
  simp only [if_neg h]

theorem toLower_toNat_upper (c : Char) (h : c.toNat ≥ 65 ∧ c.toNat ≤ 90) :
    c.toLower.toNat = c.toNat + 32 := by
  unfold Char.toLower
  have hv : (c.toNat + 32).isValidChar := by left; omega
  rw [if_pos h, Char.ofNat, dif_pos hv, charOfNatAux_toNat]

theorem toLower_idem (c : Char) : c.toLower.toLower = c.toLower := by
  by_cases h : c.toNat ≥ 65 ∧ c.toNat ≤ 90
  · apply toLower_eq_self
    rw [toLower_toNat_upper c h]
    omega
  · rw [toLower_eq_self c h, toLower_eq_self c h]

theorem map_toLower_idem (l : List Char) :
    (l.map Char.toLower).map Char.toLower = l.map Char.toLower := by
  rw [List.map_map]
  exact List.map_congr_left (fun c _ => toLower_idem c)

theorem forbidden_toNat (c : Char) (h : forbiddenHostChar c = true) :
    c.toNat < 97 ∨ 122 < c.toNat := by
  unfold forbiddenHostChar at h
  simp only [decide_eq_true_eq, List.mem_cons, List.not_mem_nil, or_false] at h
  rcases h with h|h|h|h|h|h|h|h|h|h|h|h|h|h|h|h|h|h <;> subst h <;> decide

theorem not_forbidden_toLower (c : Char) (h : forbiddenHostChar c = false) :
    forbiddenHostChar c.toLower = false := by
  by_cases hu : c.toNat ≥ 65 ∧ c.toNat ≤ 90
  · cases hf : forbiddenHostChar c.toLower
    · rfl
    · have hr := forbidden_toNat _ hf
      rw [toLower_toNat_upper c hu] at hr
      omega
  · rwa [toLower_eq_self c hu]

theorem not_authEnd_of_not_forbidden (c : Char) (h : forbiddenHostChar c = false) :
    isAuthorityEnd c = false := by
  cases ha : isAuthorityEnd c
  · rfl
  · exfalso
    unfold isAuthorityEnd at ha
    unfold forbiddenHostChar at h
    simp only [decide_eq_true_eq, List.mem_cons, List.not_mem_nil, or_false] at ha
    simp only [decide_eq_false_iff_not, List.mem_cons, List.not_mem_nil, or_false] at h
    rcases ha with ha|ha|ha|ha <;> subst ha <;> tauto

theorem slash_is_authEnd (c : Char) (h : isSlashChar c = true) :
    isAuthorityEnd c = true := by
  unfold isSlashChar at h
  unfold isAuthorityEnd
  simp only [decide_eq_true_eq, List.mem_cons, List.not_mem_nil, or_false] at h ⊢
  tauto

theorem digitsVal_cons0 (l : List Char) : digitsVal ('0' :: l) = digitsVal l := by
  have h : 10 * 0 + ('0'.toNat - 48) = 0 := by decide
  simp [digitsVal, h]

theorem digitsVal_dropZeros (l : List Char) :
    digitsVal (l.dropWhile (fun c => c = '0')) = digitsVal l := by
  induction l with
  | nil => rfl
  | cons c t ih =>
    by_cases h : c = '0'
    · subst h
      rw [List.dropWhile_cons_of_pos (by simp), ih, digitsVal_cons0]
    · rw [List.dropWhile_cons_of_neg (by simp [h])]

theorem digitsVal_stripZeros (l : List Char) :
    digitsVal (stripZeros l) = digitsVal l := by
  unfold stripZeros
  cases h : l.dropWhile (fun c => c = '0') with
  | nil =>
    have hv : digitsVal l = 0 := by rw [← digitsVal_dropZeros, h]; rfl
    by_cases hl : l = []
    · simp [hl]
    · simp only [if_neg hl, hv]
      decide
  | cons d t =>
    rw [← digitsVal_dropZeros l, h]

theorem dropWhile_head_false {α : Type} {p : α → Bool} {l : List α} {c : α} {r : List α}
    (h : l.dropWhile p = c :: r) : p c = false := by
  induction l with
  | nil => simp at h
  | cons x t ih =>
    by_cases hx : p x
    · rw [List.dropWhile_cons_of_pos hx] at h
      exact ih h
    · rw [List.dropWhile_cons_of_neg hx] at h
      cases h
      exact Bool.of_not_eq_true hx

theorem stripZeros_idem (l : List Char) : stripZeros (stripZeros l) = stripZeros l := by
  unfold stripZeros
  cases h : l.dropWhile (fun c => c = '0') with
  | nil =>
    by_cases hl : l = []
    · simp [hl]
    · simp only [if_neg hl]
      decide
  | cons d t =>
    have hd := dropWhile_head_false h
    simp only [decide_eq_false_iff_not] at hd
    rw [List.dropWhile_cons_of_neg (by simpa using hd)]

theorem mem_stripZeros_digit {l : List Char} (hd : ∀ c ∈ l, c.isDigit = true) :
    ∀ c ∈ stripZeros l, c.isDigit = true := by
  intro c hc
  unfold stripZeros at hc
  split at hc
  · by_cases hl : l = []
    · simp [hl] at hc
    · simp only [if_neg hl, List.mem_singleton] at hc
      subst hc
      decide
  · exact hd c ((List.dropWhile_sublist _).subset hc)

theorem takeWhile_append_all {α : Type} {p : α → Bool} {a : List α} (b : List α)
    (h : ∀ c ∈ a, p c = true) : (a ++ b).takeWhile p = a ++ b.takeWhile p := by
  induction a with
  | nil => simp
  | cons x t ih =>
    rw [List.cons_append, List.takeWhile_cons_of_pos (h x (by simp)), List.cons_append,
      ih (fun c hc => h c (by simp [hc]))]

theorem dropWhile_append_all {α : Type} {p : α → Bool} {a : List α} (b : List α)
    (h : ∀ c ∈ a, p c = true) : (a ++ b).dropWhile p = b.dropWhile p := by
  induction a with
  | nil => simp
  | cons x t ih =>
    rw [List.cons_append, List.dropWhile_cons_of_pos (h x (by simp))]
    exact ih (fun c hc => h c (by simp [hc]))

theorem splitLast_none_of_not_mem {c : Char} {l : List Char} (h : c ∉ l) :
    splitLast c l = none := by
  induction l with
  | nil => rfl
  | cons x t ih =>
    unfold splitLast
    rw [ih (fun hm => h (by simp [hm]))]
    exact if_neg (fun he => h (by simp [List.mem_cons, he.symm]))

theorem splitLast_ne_none_of_mem {c : Char} {l : List Char} (h : c ∈ l) :
    splitLast c l ≠ none := by
  induction l with
  | nil => simp at h
  | cons x t ih =>
    unfold splitLast
    cases hs : splitLast c t with
    | some ab => simp
    | none =>
      have hx : x = c := by
        rcases List.mem_cons.mp h with h1 | h2
        · exact h1.symm
        · exact absurd hs (ih h2)
      simp [if_pos hx]

theorem splitLast_append_of_not_mem {c : Char} (a : List Char) {b : List Char}
    (h : c ∉ b) : splitLast c (a ++ c :: b) = some (a, b) := by
  induction a with
  | nil =>
    rw [List.nil_append]
    unfold splitLast
    rw [splitLast_none_of_not_mem h]
    simp
  | cons x t ih =>
    rw [List.cons_append]
    unfold splitLast
    rw [ih]

theorem splitLast_eq_some {c : Char} {l : List Char} :
    ∀ {a b : List Char}, splitLast c l = some (a, b) → l = a ++ c :: b ∧ c ∉ b := by
  induction l with
  | nil => intro a b h; simp [splitLast] at h
  | cons x t ih =>
    intro a b h
    unfold splitLast at h
    cases hs : splitLast c t with
    | some ab =>
      obtain ⟨a1, b1⟩ := ab
      rw [hs] at h
      simp only [Option.some.injEq, Prod.mk.injEq] at h
      obtain ⟨ha, hb⟩ := h
      obtain ⟨h1, h2⟩ := ih hs
      subst ha hb
      exact ⟨by rw [List.cons_append, ← h1], h2⟩
    | none =>
      rw [hs] at h
      by_cases hx : x = c
      · rw [if_pos hx] at h
        simp only [Option.some.injEq, Prod.mk.injEq] at h
        obtain ⟨ha, hb⟩ := h
        subst ha hb hx
        exact ⟨by simp, fun hm => splitLast_ne_none_of_mem hm hs⟩
      · rw [if_neg hx] at h
        cases h

theorem alphaChar_mem {i : Nat} (h : i < 64) : alphaChar i ∈ base64urlAlphabet := by
  unfold alphaChar
  have hl : i < base64urlAlphabet.length := by
    rw [(by decide : base64urlAlphabet.length = 64)]
    exact h
  rw [List.getD_eq_getElem _ _ hl]
  exact List.getElem_mem hl

/-! ## Claim C7: the code generator -/

/-- C7: every value returned by `generateCode` is a string of exactly 6
characters, each drawn from the 64-symbol URL-safe base64 alphabet
(A-Z, a-z, 0-9, `-`, `_`), for every possible value of the four
underlying random bytes. -/
theorem claim_C7_generateCode_alphabet (b0 b1 b2 b3 : Nat)
    (h0 : b0 < 256) (h1 : b1 < 256) (h2 : b2 < 256) (h3 : b3 < 256) :
    (generateCode [b0, b1, b2, b3]).length = 6 ∧
    ∀ c ∈ generateCode [b0, b1, b2, b3], c ∈ base64urlAlphabet := by
  constructor
  · simp [generateCode, b64urlEncode]
  · intro c hc
    simp only [generateCode, b64urlEncode, List.take_succ_cons, List.take_zero,
      List.mem_cons, List.not_mem_nil, or_false] at hc
    rcases hc with h|h|h|h|h|h <;> rw [h] <;> exact alphaChar_mem (by omega)

/-- Witness for C7 at the concrete random bytes `[77, 200, 3, 129]`. -/
theorem claim_C7_witness :
    (77 < 256 ∧ 200 < 256 ∧ 3 < 256 ∧ 129 < 256) ∧
    ((generateCode [77, 200, 3, 129]).length = 6 ∧
      ∀ c ∈ generateCode [77, 200, 3, 129], c ∈ base64urlAlphabet) :=
  ⟨⟨by decide, by decide, by decide, by decide⟩,
    claim_C7_generateCode_alphabet 77 200 3 129 (by decide) (by decide) (by decide) (by decide)⟩

/-! ## Lemmas about the store operations and handlers -/

theorem pickFresh_fresh {store : Store} {codes : List (List Char)} {c : List Char}
    (h : pickFresh store codes = some c) : findByCode store c = none := by
  induction codes with
  | nil => simp [pickFresh] at h
  | cons x t ih =>
    unfold pickFresh at h
    by_cases hx : (findByCode store x).isSome
    · rw [if_pos hx] at h
      exact ih h
    · rw [if_neg hx] at h
      simp only [Option.some.injEq] at h
      subst h
      exact Option.not_isSome_iff_eq_none.mp hx

theorem codes_incrementVisits (store : Store) (c : List Char) :
    (incrementVisits store c).map (fun r => r.code) = store.map (fun r => r.code) := by
  unfold incrementVisits
  rw [List.map_map]
  apply List.map_congr_left
  intro r _
  by_cases h : r.code = c <;> simp [h]

theorem incrementVisits_of_absent {store : Store} {c : List Char}
    (h : findByCode store c = none) : incrementVisits store c = store := by
  have hall := List.find?_eq_none.mp h
  unfold incrementVisits
  conv_rhs => rw [← List.map_id store]
  apply List.map_congr_left
  intro r hr
  rw [if_neg (by simpa using hall r hr)]
  rfl

/-- Case analysis of `postShorten`: either the state is unchanged, or a
fresh code was picked and exactly one row inserted (with the cache
pre-warmed). -/
theorem postShorten_cases (s : AppState) (body : Option (List Char))
    (codes : List (List Char)) (now : List Char) :
    (postShorten s body codes now).2 = s ∨
    ∃ code nu, pickFresh s.store codes = some code ∧
      normalizeUrl (jsTrim (body.getD [])) = some nu ∧
      findByUrl s.store nu = none ∧
      (postShorten s body codes now).2 =
        ⟨insertRow s.store code nu now, cacheSet s.cache code nu⟩ := by
  cases body with
  | none => left; rfl
  | some url =>
    simp only [Option.getD_some]
    by_cases hu : url = []
    · left
      simp only [postShorten, if_pos hu]
    · simp only [postShorten, if_neg hu]
      cases hn : normalizeUrl (jsTrim url) with
      | none => left; rfl
      | some nu =>
        simp only []
        cases hf : findByUrl s.store nu with
        | some ex => left; rfl
        | none =>
          simp only []
          cases hp : pickFresh s.store codes with
          | none => left; rfl
          | some code =>
            right
            exact ⟨code, nu, rfl, rfl, hf, rfl⟩

/-- The store after `GET /:code` is always `incrementVisits` of the old
store (a no-op when the code matches no row). -/
theorem getRedirect_store (s : AppState) (code : List Char) :
    (getRedirect s code).2.store = incrementVisits s.store code := by
  unfold getRedirect
  cases cacheGet s.cache code with
  | some u => rfl
  | none =>
    cases hf : findByCode s.store code with
    | none => exact (incrementVisits_of_absent hf).symm
    | some row => rfl

/-- The store after `DELETE /stats/:code` is always the filtered store. -/
theorem deleteStats_store (s : AppState) (code : List Char) :
    (deleteStats s code).2.store = s.store.filter (fun r => r.code ≠ code) := by
  simp only [deleteStats]
  split <;> rfl

theorem codes_nodup_applyOp {s : AppState} (op : Op)
    (h : (s.store.map (fun r => r.code)).Nodup) :
    ((applyOp s op).store.map (fun r => r.code)).Nodup := by
  cases op with
  | shorten body codes now =>
    show (((postShorten s body codes now).2).store.map _).Nodup
    rcases postShorten_cases s body codes now with heq | ⟨code, nu, hp, _, _, heq⟩
    · rw [heq]; exact h
    · rw [heq]
      show ((s.store ++ [(⟨code, nu, now, 0⟩ : UrlRow)]).map (fun r => r.code)).Nodup
      rw [List.map_append]
      rw [List.nodup_append]
      refine ⟨h, List.nodup_singleton _, ?_⟩
      intro a ha hb
      simp only [List.map_cons, List.map_nil, List.mem_singleton] at hb
      subst hb
      obtain ⟨r, hr, hrc⟩ := List.mem_map.mp ha
      have := List.find?_eq_none.mp (pickFresh_fresh hp) r hr
      simp [hrc] at this
  | redirect code =>
    show (((getRedirect s code).2).store.map _).Nodup
    rw [getRedirect_store, codes_incrementVisits]
    exact h
  | remove code =>
    show (((deleteStats s code).2).store.map _).Nodup
    rw [deleteStats_store]
    exact ((List.filter_sublist _).map _).nodup h
  | stats => exact h
  | statsOne code => exact h

theorem codes_nodup_runOps (ops : List Op) (s : AppState)
    (h : (s.store.map (fun r => r.code)).Nodup) :
    ((runOps s ops).store.map (fun r => r.code)).Nodup := by
  induction ops generalizing s with
  | nil => exact h
  | cons op t ih =>
    show ((runOps (applyOp s op) t).store.map _).Nodup
    exact ih _ (codes_nodup_applyOp op h)

/-! ## Claim C3: code uniqueness is an invariant -/

/-- C3: in every state reachable by any sequence of shorten, redirect,
remove and stats requests from the empty store, no two rows of the `urls`
table share a code (so in particular two shorten calls never create two
records with the same code). -/
theorem claim_C3_code_unique (s : AppState) (h : Reachable s) :
    (s.store.map (fun r => r.code)).Nodup := by
  obtain ⟨connected, ops, rfl⟩ := h
  exact codes_nodup_runOps ops _ (by simp [initState])

/-- Witness for C3: a state reached by an actual shorten request. -/
theorem claim_C3_witness :
    Reachable (runOps (initState true)
      [Op.shorten (some "github.com".data) ["abc123".data] "2024-01-01".data]) ∧
    ((runOps (initState true)
      [Op.shorten (some "github.com".data) ["abc123".data] "2024-01-01".data]).store.map
        (fun r => r.code)).Nodup := by
  constructor
  · exact ⟨true, _, rfl⟩
  · exact claim_C3_code_unique _ ⟨true, _, rfl⟩

theorem findByCode_incrementVisits (store : Store) (c x : List Char) :
    findByCode (incrementVisits store c) x =
      (findByCode store x).map
        (fun r => if r.code = c then { r with visits := r.visits + 1 } else r) := by
  induction store with
  | nil => rfl
  | cons r t ih =>
    show findByCode ((if r.code = c then { r with visits := r.visits + 1 } else r) ::
      incrementVisits t c) x = _
    have hcode : (if r.code = c then { r with visits := r.visits + 1 } else r).code = r.code := by
      by_cases h : r.code = c <;> simp [h]
    unfold findByCode at ih ⊢
    rw [List.find?_cons, List.find?_cons, hcode]
    by_cases hx : r.code = x
    · simp [hx]
    · simp [hx, ih]

theorem eq_of_code_eq_of_nodup {store : Store}
    (h : (store.map (fun r => r.code)).Nodup) {r r' : UrlRow}
    (hr : r ∈ store) (hr' : r' ∈ store) (hc : r.code = r'.code) : r = r' := by
  induction store with
  | nil => simp at hr
  | cons x t ih =>
    simp only [List.map_cons, List.nodup_cons] at h
    rcases List.mem_cons.mp hr with h1 | h1 <;> rcases List.mem_cons.mp hr' with h2 | h2
    · rw [h1, h2]
    · exfalso
      apply h.1
      rw [← h1, hc]
      exact List.mem_map.mpr ⟨r', h2, rfl⟩
    · exfalso
      apply h.1
      rw [← h2, ← hc]
      exact List.mem_map.mpr ⟨r, h1, rfl⟩
    · exact ih h.2 h1 h2

/-- Characterization of a successful creation: `postShorten` answered
`created code nu` iff the body was a non-empty string normalizing to
`nu`, `nu` was not yet in the table, `code` is the first non-colliding
candidate, and the new state has the row inserted and the cache
pre-warmed. -/
theorem postShorten_created {s : AppState} {body : Option (List Char)}
    {codes : List (List Char)} {now code nu : List Char}
    (h : (postShorten s body codes now).1 = .created code nu) :
    (∃ url, body = some url ∧ url ≠ [] ∧ normalizeUrl (jsTrim url) = some nu) ∧
    pickFresh s.store codes = some code ∧
    findByUrl s.store nu = none ∧
    findByCode s.store code = none ∧
    (postShorten s body codes now).2 =
      ⟨insertRow s.store code nu now, cacheSet s.cache code nu⟩ := by
  cases body with
  | none => simp [postShorten] at h
  | some url =>
    by_cases hu : url = []
    · rw [show postShorten s (some url) codes now = (.missingUrl, s) by
        simp [postShorten, if_pos hu]] at h
      simp at h
    · simp only [postShorten, if_neg hu] at h ⊢
      cases hn : normalizeUrl (jsTrim url) with
      | none => rw [hn] at h; simp at h
      | some nu0 =>
        rw [hn] at h
        simp only [] at h ⊢
        cases hf : findByUrl s.store nu0 with
        | some ex => rw [hf] at h; simp at h
        | none =>
          rw [hf] at h
          simp only [] at h ⊢
          cases hp : pickFresh s.store codes with
          | none => rw [hp] at h; simp at h
          | some c0 =>
            rw [hp] at h
            simp only [ShortenResult.created.injEq] at h
            obtain ⟨rfl, rfl⟩ := h
            exact ⟨⟨url, rfl, hu, hn⟩, rfl, hf, pickFresh_fresh hp, rfl⟩

/-! ## Claim C9: the redirect operation is frame-preserving -/

/-- C9: the store after `GET /:code` is exactly the old store with the
row for `code` (if any) getting `visits + 1` — so only the `visits`
field of that row changes, and every other row and field (including
`created_at` and `original_url`) is untouched; moreover, after any
operation whatsoever, every row either descends from a row of the old
store with the same `code`, `original_url` and `created_at`, or is a
freshly inserted row with `visits = 0` and a code that was absent. -/
theorem claim_C9_frame :
    (∀ (s : AppState) (c : List Char),
      (getRedirect s c).2.store =
        s.store.map (fun r => if r.code = c then { r with visits := r.visits + 1 } else r)) ∧
    (∀ (op : Op) (s : AppState) (r' : UrlRow), r' ∈ (applyOp s op).store →
      (∃ r ∈ s.store, r.code = r'.code ∧ r.original_url = r'.original_url ∧
        r.created_at = r'.created_at) ∨
      (r'.visits = 0 ∧ findByCode s.store r'.code = none)) := by
  constructor
  · intro s c
    exact getRedirect_store s c
  · intro op s r' hr'
    cases op with
    | shorten body codes now =>
      rcases postShorten_cases s body codes now with heq | ⟨code, nu, hp, _, hfu, heq⟩
      · rw [show applyOp s (Op.shorten body codes now) = s from heq] at hr'
        exact Or.inl ⟨r', hr', rfl, rfl, rfl⟩
      · rw [show applyOp s (Op.shorten body codes now) =
          ⟨insertRow s.store code nu now, cacheSet s.cache code nu⟩ from heq] at hr'
        rcases List.mem_append.mp hr' with hm | hm
        · exact Or.inl ⟨r', hm, rfl, rfl, rfl⟩
        · simp only [List.mem_singleton] at hm
          subst hm
          exact Or.inr ⟨rfl, pickFresh_fresh hp⟩
    | redirect code =>
      rw [show applyOp s (Op.redirect code) = (getRedirect s code).2 from rfl,
        getRedirect_store] at hr'
      unfold incrementVisits at hr'
      obtain ⟨r, hr, hrr⟩ := List.mem_map.mp hr'
      refine Or.inl ⟨r, hr, ?_, ?_, ?_⟩ <;> rw [← hrr] <;>
        by_cases h : r.code = code <;> simp [h]
    | remove code =>
      rw [show applyOp s (Op.remove code) = (deleteStats s code).2 from rfl,
        deleteStats_store] at hr'
      exact Or.inl ⟨r', (List.filter_sublist _).subset hr', rfl, rfl, rfl⟩
    | stats => exact Or.inl ⟨r', hr', rfl, rfl, rfl⟩
    | statsOne code => exact Or.inl ⟨r', hr', rfl, rfl, rfl⟩

/-- Witness for C9 at a concrete one-row state and a redirect request. -/
theorem claim_C9_witness :
    ((⟨"abc123".data, "https://example.com/".data, "t0".data, 1⟩ : UrlRow) ∈
      (applyOp ⟨[⟨"abc123".data, "https://example.com/".data, "t0".data, 0⟩],
        ⟨false, []⟩⟩ (Op.redirect "abc123".data)).store) ∧
    ((∃ r ∈ [(⟨"abc123".data, "https://example.com/".data, "t0".data, 0⟩ : UrlRow)],
        r.code = "abc123".data ∧ r.original_url = "https://example.com/".data ∧
        r.created_at = "t0".data) ∨
      ((1 : Nat) = 0 ∧
        findByCode [(⟨"abc123".data, "https://example.com/".data, "t0".data, 0⟩ : UrlRow)]
          "abc123".data = none)) := by
  constructor
  · decide
  · exact claim_C9_frame.2 (Op.redirect "abc123".data)
      ⟨[⟨"abc123".data, "https://example.com/".data, "t0".data, 0⟩], ⟨false, []⟩⟩
      ⟨"abc123".data, "https://example.com/".data, "t0".data, 1⟩ (by decide)

/-! ## Cache-store coherence (for single-threaded executions) -/

theorem findByCode_insertRow_isSome {store : Store} {x code url now : List Char}
    (h : (findByCode store x).isSome = true) :
    (findByCode (insertRow store code url now) x).isSome = true := by
  unfold findByCode at h ⊢
  unfold insertRow
  rw [List.find?_append]
  rw [Option.isSome_iff_exists] at h
  obtain ⟨r, hr⟩ := h
  rw [hr]
  rfl

theorem findByCode_insertRow_self (store : Store) (code url now : List Char)
    (h : findByCode store code = none) :
    findByCode (insertRow store code url now) code = some ⟨code, url, now, 0⟩ := by
  unfold findByCode at h ⊢
  unfold insertRow
  rw [List.find?_append, h]
  simp

theorem getRedirect_cache_cases (s : AppState) (code : List Char) :
    (getRedirect s code).2.cache = s.cache ∨
    ∃ row, findByCode s.store code = some row ∧
      (getRedirect s code).2.cache = cacheSet s.cache code row.original_url := by
  unfold getRedirect
  cases cacheGet s.cache code with
  | some u => left; rfl
  | none =>
    cases hf : findByCode s.store code with
    | none => left; rfl
    | some row =>
      right
      exact ⟨row, rfl, rfl⟩

theorem deleteByCode_zero_iff (store : Store) (code : List Char) :
    (deleteByCode store code).2 = 0 ↔ findByCode store code = none := by
  unfold deleteByCode findByCode
  simp only [List.length_eq_zero, List.filter_eq_nil_iff, List.find?_eq_none,
    decide_eq_true_eq]

theorem cacheGet_none_of_coherent {s : AppState} {c : List Char}
    (hco : CacheCoherent s) (hfc : findByCode s.store c = none) :
    cacheGet s.cache c = none := by
  unfold cacheGet
  by_cases hcon : s.cache.connected = true
  · rw [if_pos hcon]
    cases hf : s.cache.entries.find? (fun e => e.1 = c) with
    | none => rfl
    | some kv =>
      exfalso
      have hmem := List.mem_of_find?_eq_some hf
      have hp := List.find?_some hf
      simp only [decide_eq_true_eq] at hp
      have := hco hcon kv hmem
      rw [hp, hfc] at this
      simp at this
  · rw [if_neg hcon]

theorem cacheCoherent_applyOp {s : AppState} (op : Op) (h : CacheCoherent s) :
    CacheCoherent (applyOp s op) := by
  cases op with
  | shorten body codes now =>
    rcases postShorten_cases s body codes now with heq | ⟨code, nu, hp, _, _, heq⟩
    · rw [show applyOp s (Op.shorten body codes now) = s from heq]
      exact h
    · rw [show applyOp s (Op.shorten body codes now) =
        ⟨insertRow s.store code nu now, cacheSet s.cache code nu⟩ from heq]
      intro hc kv hkv
      simp only at hc hkv
      unfold cacheSet at hc hkv
      by_cases hcon : s.cache.connected = true
      · rw [if_pos hcon] at hkv
        simp only at hkv
        rcases List.mem_cons.mp hkv with rfl | hm
        · exact findByCode_insertRow_self s.store code nu now (pickFresh_fresh hp) ▸ rfl
        · exact findByCode_insertRow_isSome
            (h hcon kv ((List.filter_sublist _).subset hm))
      · rw [if_neg hcon] at hc
        exact absurd hc hcon
  | redirect code =>
    intro hc kv hkv
    have hst : (applyOp s (Op.redirect code)).store = incrementVisits s.store code :=
      getRedirect_store s code
    rw [hst, findByCode_incrementVisits]
    rw [show ((Option.map _ _).isSome) = (findByCode s.store kv.1).isSome from Option.isSome_map]
    rcases getRedirect_cache_cases s code with hcc | ⟨row, hfr, hcc⟩
    · rw [show (applyOp s (Op.redirect code)).cache = s.cache from hcc] at hc hkv
      exact h hc kv hkv
    · rw [show (applyOp s (Op.redirect code)).cache = cacheSet s.cache code row.original_url
        from hcc] at hc hkv
      unfold cacheSet at hc hkv
      by_cases hcon : s.cache.connected = true
      · rw [if_pos hcon] at hkv
        simp only at hkv
        rcases List.mem_cons.mp hkv with rfl | hm
        · simp [hfr]
        · exact h hcon kv ((List.filter_sublist _).subset hm)
      · rw [if_neg hcon] at hc
        exact absurd hc hcon
  | remove code =>
    intro hc kv hkv
    rw [show (applyOp s (Op.remove code)).store = s.store.filter (fun r => r.code ≠ code)
      from deleteStats_store s code]
    unfold findByCode
    rw [List.find?_isSome]
    by_cases h0 : (deleteByCode s.store code).2 = 0
    · have hstate : applyOp s (Op.remove code) = ⟨(deleteByCode s.store code).1, s.cache⟩ := by
        show (deleteStats s code).2 = _
        simp only [deleteStats, if_pos h0]
      rw [hstate] at hc hkv
      have hfn : findByCode s.store code = none := (deleteByCode_zero_iff _ _).mp h0
      have hback := h hc kv hkv
      unfold findByCode at hback
      rw [Option.isSome_iff_exists] at hback
      obtain ⟨r, hr⟩ := hback
      have hmem := List.mem_of_find?_eq_some hr
      have hpr := List.find?_some hr
      simp only [decide_eq_true_eq] at hpr
      refine ⟨r, List.mem_filter.mpr ⟨hmem, ?_⟩, by simp [hpr]⟩
      have := List.find?_eq_none.mp hfn r hmem
      simpa using this
    · have hstate : applyOp s (Op.remove code) =
          ⟨(deleteByCode s.store code).1, cacheDel s.cache code⟩ := by
        show (deleteStats s code).2 = _
        simp only [deleteStats, if_neg h0]
      rw [hstate] at hc hkv
      simp only at hc hkv
      unfold cacheDel at hc hkv
      by_cases hcon : s.cache.connected = true
      · rw [if_pos hcon] at hkv
        simp only at hkv
        have hkv2 := (List.filter_sublist _).subset hkv
        have hne : kv.1 ≠ code := by
          have := List.of_mem_filter hkv
          simpa using this
        have hback := h hcon kv hkv2
        unfold findByCode at hback
        rw [Option.isSome_iff_exists] at hback
        obtain ⟨r, hr⟩ := hback
        have hmem := List.mem_of_find?_eq_some hr
        have hpr := List.find?_some hr
        simp only [decide_eq_true_eq] at hpr
        refine ⟨r, List.mem_filter.mpr ⟨hmem, by simp [hpr, hne]⟩, by simp [hpr]⟩
      · rw [if_neg hcon] at hc
        exact absurd hc hcon
  | stats => exact h
  | statsOne code => exact h

theorem cacheCoherent_reachable {s : AppState} (h : Reachable s) : CacheCoherent s := by
  obtain ⟨connected, ops, rfl⟩ := h
  have hrun : ∀ (ops : List Op) (s : AppState), CacheCoherent s → CacheCoherent (runOps s ops) := by
    intro ops
    induction ops with
    | nil => intro s hs; exact hs
    | cons op t ih =>
      intro s hs
      exact ih _ (cacheCoherent_applyOp op hs)
  apply hrun
  intro _ kv hkv
  simp [initState] at hkv

/-! ## Claim C5: visit counting -/

/-- C5: (i) a redirect on an existing code increments exactly that
record's `visits` by 1, observably via `GET /stats/:code`; (ii) in any
reachable state, a redirect on a nonexistent code answers 404 and leaves
the whole state unchanged; (iii) a newly created record starts with
`visits = 0`; (iv) `visits` never decreases under any operation (in a
store with unique codes). -/
theorem claim_C5_visits :
    (∀ (s : AppState) (c : List Char) (row : UrlRow),
      findByCode s.store c = some row →
        getStatsCode (getRedirect s c).2 c =
          some ⟨row.code, row.original_url, row.created_at, row.visits + 1⟩) ∧
    (∀ (s : AppState) (c : List Char), Reachable s → findByCode s.store c = none →
        getRedirect s c = (.notFound, s)) ∧
    (∀ (s : AppState) (body : Option (List Char)) (codes : List (List Char))
        (now code nu : List Char),
      (postShorten s body codes now).1 = .created code nu →
        findByCode (postShorten s body codes now).2.store code = some ⟨code, nu, now, 0⟩) ∧
    (∀ (op : Op) (s : AppState), (s.store.map (fun r => r.code)).Nodup →
      ∀ r ∈ s.store, ∀ r' ∈ (applyOp s op).store, r'.code = r.code →
        r.visits ≤ r'.visits) := by
  refine ⟨?_, ?_, ?_, ?_⟩
  · intro s c row hf
    have hrc : row.code = c := by
      have := List.find?_some hf
      simpa using this
    unfold getStatsCode
    rw [getRedirect_store, findByCode_incrementVisits, hf]
    simp [hrc]
  · intro s c hreach hfc
    have hcg := cacheGet_none_of_coherent (cacheCoherent_reachable hreach) hfc
    unfold getRedirect
    rw [hcg, hfc]
  · intro s body codes now code nu h
    obtain ⟨hbody, hp, hfu, hfc, hstate⟩ := postShorten_created h
    rw [hstate]
    exact findByCode_insertRow_self s.store code nu now hfc
  · intro op s hnd r hr r' hr' hcode
    cases op with
    | shorten body codes now =>
      rcases postShorten_cases s body codes now with heq | ⟨code, nu, hp, _, _, heq⟩
      · rw [show applyOp s (Op.shorten body codes now) = s from heq] at hr'
        rw [eq_of_code_eq_of_nodup hnd hr hr' hcode.symm]
      · rw [show applyOp s (Op.shorten body codes now) =
          ⟨insertRow s.store code nu now, cacheSet s.cache code nu⟩ from heq] at hr'
        rcases List.mem_append.mp hr' with hm | hm
        · rw [eq_of_code_eq_of_nodup hnd hr hm hcode.symm]
        · exfalso
          simp only [List.mem_singleton] at hm
          have hfresh := List.find?_eq_none.mp (pickFresh_fresh hp) r hr
          rw [hm] at hcode
          simp only at hcode
          rw [← hcode] at hfresh
          simp at hfresh
    | redirect code =>
      rw [show applyOp s (Op.redirect code) = (getRedirect s code).2 from rfl,
        getRedirect_store] at hr'
      unfold incrementVisits at hr'
      obtain ⟨r0, hr0, hrr⟩ := List.mem_map.mp hr'
      have hr0c : r0.code = r'.code := by
        rw [← hrr]
        by_cases h2 : r0.code = code <;> simp [h2]
      have : r0 = r := eq_of_code_eq_of_nodup hnd hr0 hr (hr0c.trans hcode)
      subst this
      rw [← hrr]
      by_cases h2 : r0.code = code <;> simp [h2]
    | remove code =>
      rw [show applyOp s (Op.remove code) = (deleteStats s code).2 from rfl,
        deleteStats_store] at hr'
      have hm := (List.filter_sublist _).subset hr'
      rw [eq_of_code_eq_of_nodup hnd hr hm hcode.symm]
    | stats =>
      rw [eq_of_code_eq_of_nodup hnd hr hr' hcode.symm]
    | statsOne code =>
      rw [eq_of_code_eq_of_nodup hnd hr hr' hcode.symm]

/-- Witness for C5, instantiating all four parts at concrete states. -/
theorem claim_C5_witness :
    (findByCode sampleState.store "abc123".data = some sampleRow ∧
      getStatsCode (getRedirect sampleState "abc123".data).2 "abc123".data =
        some ⟨sampleRow.code, sampleRow.original_url, sampleRow.created_at,
          sampleRow.visits + 1⟩) ∧
    (Reachable (initState true) ∧ findByCode (initState true).store "zz".data = none ∧
      getRedirect (initState true) "zz".data = (.notFound, initState true)) ∧
    ((postShorten (initState true) (some "github.com".data) ["abc123".data] "t0".data).1 =
        .created "abc123".data "https://github.com/".data ∧
      findByCode (postShorten (initState true) (some "github.com".data) ["abc123".data]
          "t0".data).2.store "abc123".data =
        some ⟨"abc123".data, "https://github.com/".data, "t0".data, 0⟩) ∧
    ((sampleState.store.map (fun r => r.code)).Nodup ∧
      sampleRow.visits ≤
        (⟨"abc123".data, "https://example.com/".data, "t0".data, 1⟩ : UrlRow).visits) := by
  refine ⟨⟨by decide, ?_⟩, ⟨⟨true, [], rfl⟩, rfl, ?_⟩, ⟨by decide, ?_⟩, ⟨by decide, ?_⟩⟩
  · exact claim_C5_visits.1 sampleState _ sampleRow (by decide)
  · exact claim_C5_visits.2.1 (initState true) _ ⟨true, [], rfl⟩ rfl
  · exact claim_C5_visits.2.2.1 (initState true) _ _ _ _ _ (by decide)
  · exact claim_C5_visits.2.2.2 (Op.redirect "abc123".data) sampleState (by decide)
      sampleRow (by decide)
      ⟨"abc123".data, "https://example.com/".data, "t0".data, 1⟩ (by decide) rfl

/-! ## Claim C4: delete semantics -/

theorem deleteStats_fst (s : AppState) (c : List Char) :
    (deleteStats s c).1 =
      (if (deleteByCode s.store c).2 = 0 then DeleteResult.notFound else .deleted) := by
  simp only [deleteStats]
  split <;> simp_all

theorem filter_code_singleton {store : Store} {c : List Char} {row : UrlRow}
    (hnd : (store.map (fun r => r.code)).Nodup)
    (h : findByCode store c = some row) :
    store.filter (fun r => r.code = c) = [row] := by
  induction store with
  | nil => simp [findByCode] at h
  | cons x t ih =>
    simp only [List.map_cons, List.nodup_cons] at hnd
    unfold findByCode at h ih
    rw [List.find?_cons] at h
    rw [List.filter_cons]
    by_cases hx : x.code = c
    · simp only [hx, decide_True, cond_true, Option.some.injEq] at h
      subst h
      simp only [hx, decide_True, if_true]
      rw [List.filter_eq_nil_iff.mpr, List.cons_eq_cons]
      · exact ⟨rfl, rfl⟩
      · intro r hr
        simp only [decide_eq_true_eq]
        intro hrc
        exact hnd.1 (List.mem_map.mpr ⟨r, hr, by rw [hrc, hx]⟩)
    · simp only [hx, decide_False, cond_false] at h
      simp only [hx, decide_False, if_false]
      exact ih hnd.2 h

theorem cacheGet_cacheDel_self (cache : CacheState) (c : List Char) :
    cacheGet (cacheDel cache c) c = none := by
  unfold cacheGet cacheDel
  by_cases hcon : cache.connected = true
  · rw [if_pos hcon]
    simp only [hcon, if_true]
    rw [List.find?_eq_none.mpr]
    · rfl
    · intro kv hkv
      have := List.of_mem_filter hkv
      simpa using this
  · rw [if_neg hcon]
    rw [if_neg (by simpa using hcon)]

theorem findByCode_filter_self (store : Store) (c : List Char) :
    findByCode (store.filter (fun r => r.code ≠ c)) c = none := by
  unfold findByCode
  apply List.find?_eq_none.mpr
  intro r hr
  have := List.of_mem_filter hr
  simpa using this

/-- C4: `DELETE /stats/:code` succeeds iff a record with that code
exists (and then `deleteByCode` affects exactly one row); on a missing
code it answers 404 and leaves the state unchanged; and after a
successful delete, a redirect on the same code answers 404 (the cache
entry, if any, was invalidated) and leaves the state unchanged. -/
theorem claim_C4_remove (s : AppState) (c : List Char)
    (hnd : (s.store.map (fun r => r.code)).Nodup) :
    ((deleteStats s c).1 = .deleted ↔ (findByCode s.store c).isSome = true) ∧
    ((findByCode s.store c).isSome = true → (deleteByCode s.store c).2 = 1) ∧
    ((deleteStats s c).1 = .notFound → (deleteStats s c).2 = s) ∧
    ((deleteStats s c).1 = .deleted →
      getRedirect (deleteStats s c).2 c = (.notFound, (deleteStats s c).2)) := by
  have hone : (findByCode s.store c).isSome = true → (deleteByCode s.store c).2 = 1 := by
    intro hs
    rw [Option.isSome_iff_exists] at hs
    obtain ⟨row, hrow⟩ := hs
    show (s.store.filter (fun r => r.code = c)).length = 1
    rw [filter_code_singleton hnd hrow]
    rfl
  refine ⟨?_, hone, ?_, ?_⟩
  · rw [deleteStats_fst]
    by_cases h0 : (deleteByCode s.store c).2 = 0
    · rw [if_pos h0]
      have := (deleteByCode_zero_iff _ _).mp h0
      simp [this]
    · rw [if_neg h0]
      simp only [true_iff]
      cases hf : findByCode s.store c with
      | none => exact absurd ((deleteByCode_zero_iff _ _).mpr hf) h0
      | some row => rfl
  · intro hnf
    rw [deleteStats_fst] at hnf
    by_cases h0 : (deleteByCode s.store c).2 = 0
    · have hfn := (deleteByCode_zero_iff _ _).mp h0
      have hstate : (deleteStats s c).2 = ⟨(deleteByCode s.store c).1, s.cache⟩ := by
        simp only [deleteStats, if_pos h0]
      rw [hstate]
      have : (deleteByCode s.store c).1 = s.store := by
        show s.store.filter (fun r => r.code ≠ c) = s.store
        apply List.filter_eq_self.mpr
        intro r hr
        have := List.find?_eq_none.mp hfn r hr
        simpa using this
      rw [this]
    · rw [if_neg h0] at hnf
      cases hnf
  · intro hdel
    rw [deleteStats_fst] at hdel
    by_cases h0 : (deleteByCode s.store c).2 = 0
    · rw [if_pos h0] at hdel
      cases hdel
    · have hstate : (deleteStats s c).2 =
          ⟨(deleteByCode s.store c).1, cacheDel s.cache c⟩ := by
        simp only [deleteStats, if_neg h0]
      rw [hstate]
      unfold getRedirect
      rw [show cacheGet (⟨(deleteByCode s.store c).1, cacheDel s.cache c⟩ : AppState).cache c =
        none from cacheGet_cacheDel_self s.cache c]
      rw [show findByCode (⟨(deleteByCode s.store c).1, cacheDel s.cache c⟩ : AppState).store c =
        none from findByCode_filter_self s.store c]

/-- Witness for C4 at the sample one-row state. -/
theorem claim_C4_witness :
    (sampleState.store.map (fun r => r.code)).Nodup ∧
    (((deleteStats sampleState "abc123".data).1 = .deleted ↔
        (findByCode sampleState.store "abc123".data).isSome = true) ∧
      ((findByCode sampleState.store "abc123".data).isSome = true →
        (deleteByCode sampleState.store "abc123".data).2 = 1) ∧
      ((deleteStats sampleState "abc123".data).1 = .notFound →
        (deleteStats sampleState "abc123".data).2 = sampleState) ∧
      ((deleteStats sampleState "abc123".data).1 = .deleted →
        getRedirect (deleteStats sampleState "abc123".data).2 "abc123".data =
          (.notFound, (deleteStats sampleState "abc123".data).2))) :=
  ⟨by decide, claim_C4_remove sampleState "abc123".data (by decide)⟩

/-! ## Claim C1: create-then-resolve round trip -/

theorem cacheGet_cacheSet_self (cache : CacheState) (code u : List Char) :
    cacheGet (cacheSet cache code u) code =
      (if cache.connected = true then some u else none) := by
  unfold cacheGet cacheSet
  by_cases hcon : cache.connected = true
  · rw [if_pos hcon, if_pos hcon]
    simp [hcon]
  · rw [if_neg hcon, if_neg hcon]
    rw [if_neg (by simpa using hcon)]

/-- C1: whenever `POST /shorten` creates a new record with code `code`
and normalized URL `nu` (the normalization of the trimmed request body),
an immediately following `GET /:code` redirects exactly to `nu`, which
is also the `original_url` stored for `code` — both when the cache layer
is connected and when it is absent. -/
theorem claim_C1_create_resolve (s : AppState) (body : Option (List Char))
    (codes : List (List Char)) (now code nu : List Char)
    (h : (postShorten s body codes now).1 = .created code nu) :
    (∃ url, body = some url ∧ url ≠ [] ∧ normalizeUrl (jsTrim url) = some nu) ∧
    (getRedirect (postShorten s body codes now).2 code).1 = .redirect nu ∧
    findByCode (postShorten s body codes now).2.store code = some ⟨code, nu, now, 0⟩ := by
  obtain ⟨hbody, hp, hfu, hfc, hstate⟩ := postShorten_created h
  refine ⟨hbody, ?_, ?_⟩
  · rw [hstate]
    unfold getRedirect
    rw [show cacheGet (⟨insertRow s.store code nu now, cacheSet s.cache code nu⟩ :
        AppState).cache code = (if s.cache.connected = true then some nu else none)
      from cacheGet_cacheSet_self s.cache code nu]
    by_cases hcon : s.cache.connected = true
    · rw [if_pos hcon]
    · rw [if_neg hcon]
      rw [show findByCode (⟨insertRow s.store code nu now, cacheSet s.cache code nu⟩ :
          AppState).store code = some ⟨code, nu, now, 0⟩
        from findByCode_insertRow_self s.store code nu now hfc]
  · rw [hstate]
    exact findByCode_insertRow_self s.store code nu now hfc

/-- Witness for C1: a concrete creation followed by a redirect, with the
cache both present and absent. -/
theorem claim_C1_witness :
    ((postShorten (initState true) (some "github.com".data) ["abc123".data] "t0".data).1 =
        .created "abc123".data "https://github.com/".data ∧
      (getRedirect (postShorten (initState true) (some "github.com".data) ["abc123".data]
          "t0".data).2 "abc123".data).1 = .redirect "https://github.com/".data) ∧
    ((postShorten (initState false) (some "github.com".data) ["abc123".data] "t0".data).1 =
        .created "abc123".data "https://github.com/".data ∧
      (getRedirect (postShorten (initState false) (some "github.com".data) ["abc123".data]
          "t0".data).2 "abc123".data).1 = .redirect "https://github.com/".data) := by
  refine ⟨⟨by decide, ?_⟩, ⟨by decide, ?_⟩⟩
  · exact (claim_C1_create_resolve (initState true) _ _ _ _ _ (by decide)).2.1
  · exact (claim_C1_create_resolve (initState false) _ _ _ _ _ (by decide)).2.1

/-! ## Claim C6: dedup / idempotence of shorten -/

theorem postShorten_existing {s : AppState} {body : Option (List Char)}
    {codes : List (List Char)} {now c nu : List Char}
    (h : (postShorten s body codes now).1 = .existing c nu) :
    ∃ row, findByUrl s.store nu = some row ∧ row.code = c ∧
      (postShorten s body codes now).2 = s := by
  cases body with
  | none => simp [postShorten] at h
  | some url =>
    by_cases hu : url = []
    · rw [show postShorten s (some url) codes now = (.missingUrl, s) by
        simp [postShorten, if_pos hu]] at h
      simp at h
    · simp only [postShorten, if_neg hu] at h ⊢
      cases hn : normalizeUrl (jsTrim url) with
      | none => rw [hn] at h; simp at h
      | some nu0 =>
        rw [hn] at h
        simp only [] at h ⊢
        cases hf : findByUrl s.store nu0 with
        | some ex =>
          rw [hf] at h
          simp only [ShortenResult.existing.injEq] at h
          obtain ⟨rfl, rfl⟩ := h
          exact ⟨ex, hf, rfl, rfl⟩
        | none =>
          rw [hf] at h
          simp only [] at h
          cases hp : pickFresh s.store codes with
          | none => rw [hp] at h; simp at h
          | some c0 => rw [hp] at h; simp at h

theorem findByUrl_insertRow_self (store : Store) (code url now : List Char)
    (h : findByUrl store url = none) :
    findByUrl (insertRow store code url now) url = some ⟨code, url, now, 0⟩ := by
  unfold findByUrl at h ⊢
  unfold insertRow
  rw [List.find?_append, h]
  simp

/-- A `POST /shorten` whose normalized URL is already in the table
answers with the existing row's code and leaves the state unchanged. -/
theorem postShorten_dedup_of_found {s : AppState} {u nu : List Char} {row : UrlRow}
    (codes : List (List Char)) (now : List Char)
    (hu : u ≠ []) (hn : normalizeUrl (jsTrim u) = some nu)
    (hf : findByUrl s.store nu = some row) :
    postShorten s (some u) codes now = (.existing row.code nu, s) := by
  simp only [postShorten, if_neg hu]
  rw [hn]
  simp only []
  rw [hf]

/-- C6: two shorten requests whose (trimmed) inputs normalize to the same
URL return the same code, and the second request creates no row and
leaves the whole state unchanged. -/
theorem claim_C6_dedup (s : AppState)
    (codes1 codes2 : List (List Char)) (now1 now2 : List Char)
    (u1 u2 nu c : List Char)
    (hu2 : u2 ≠ []) (hn2 : normalizeUrl (jsTrim u2) = some nu)
    (h1 : (postShorten s (some u1) codes1 now1).1 = .created c nu ∨
          (postShorten s (some u1) codes1 now1).1 = .existing c nu) :
    (postShorten (postShorten s (some u1) codes1 now1).2 (some u2) codes2 now2).1 =
      .existing c nu ∧
    (postShorten (postShorten s (some u1) codes1 now1).2 (some u2) codes2 now2).2 =
      (postShorten s (some u1) codes1 now1).2 := by
  rcases h1 with hcr | hex
  · obtain ⟨_, hp, hfu, hfc, hstate⟩ := postShorten_created hcr
    have hfind : findByUrl (postShorten s (some u1) codes1 now1).2.store nu =
        some ⟨c, nu, now1, 0⟩ := by
      rw [hstate]
      exact findByUrl_insertRow_self s.store c nu now1 hfu
    have hd := postShorten_dedup_of_found codes2 now2 hu2 hn2 hfind
    rw [hd]
    exact ⟨rfl, rfl⟩
  · obtain ⟨row, hfu, hrc, hstate⟩ := postShorten_existing hex
    have hfind : findByUrl (postShorten s (some u1) codes1 now1).2.store nu = some row := by
      rw [hstate]
      exact hfu
    have hd := postShorten_dedup_of_found codes2 now2 hu2 hn2 hfind
    rw [hd, hrc]
    exact ⟨rfl, rfl⟩

/-- Witness for C6: shortening `github.com` and then
`https://github.com` (same normalized URL) from the startup state. -/
theorem claim_C6_witness :
    ("https://github.com".data ≠ ([] : List Char)) ∧
    (normalizeUrl (jsTrim "https://github.com".data) = some "https://github.com/".data) ∧
    ((postShorten (initState true) (some "github.com".data) ["abc123".data] "t0".data).1 =
      .created "abc123".data "https://github.com/".data ∨
     (postShorten (initState true) (some "github.com".data) ["abc123".data] "t0".data).1 =
      .existing "abc123".data "https://github.com/".data) ∧
    ((postShorten (postShorten (initState true) (some "github.com".data) ["abc123".data]
        "t0".data).2 (some "https://github.com".data) ["zzz999".data] "t1".data).1 =
      .existing "abc123".data "https://github.com/".data ∧
     (postShorten (postShorten (initState true) (some "github.com".data) ["abc123".data]
        "t0".data).2 (some "https://github.com".data) ["zzz999".data] "t1".data).2 =
      (postShorten (initState true) (some "github.com".data) ["abc123".data] "t0".data).2) := by
  refine ⟨by decide, by decide, Or.inl (by decide), ?_⟩
  exact claim_C6_dedup (initState true) ["abc123".data] ["zzz999".data] "t0".data "t1".data
    "github.com".data "https://github.com".data "https://github.com/".data "abc123".data
    (by decide) (by decide) (Or.inl (by decide))

/-! ## Claim C10: whitespace trimming in the shorten handler

The handler calls `normalizeUrl(url.trim())`, so surrounding whitespace
is irrelevant — except that the falsiness guard `!url` runs BEFORE the
trim: the empty string is rejected as "Missing url" while a non-empty
all-whitespace string passes the guard, trims to the empty string, and
is rejected as "Invalid URL".  So padding the empty input changes the
validation outcome, and the claim holds only for non-empty `u`. -/

theorem dropWhile_all_nil {α : Type} {p : α → Bool} {l : List α}
    (h : ∀ c ∈ l, p c = true) : l.dropWhile p = [] := by
  induction l with
  | nil => rfl
  | cons x t ih =>
    rw [List.dropWhile_cons_of_pos (h x (by simp))]
    exact ih (fun c hc => h c (by simp [hc]))

theorem jsTrim_append_ws_left {w1 : List Char} (l : List Char)
    (hw : ∀ c ∈ w1, isWsChar c = true) : jsTrim (w1 ++ l) = jsTrim l := by
  unfold jsTrim
  rw [dropWhile_append_all l hw]

theorem jsTrim_append_ws_right {w2 : List Char} (l : List Char)
    (hw : ∀ c ∈ w2, isWsChar c = true) : jsTrim (l ++ w2) = jsTrim l := by
  unfold jsTrim
  rw [List.dropWhile_append]
  by_cases he : (l.dropWhile isWsChar).isEmpty = true
  · rw [if_pos he]
    rw [dropWhile_all_nil hw]
    rw [List.isEmpty_iff] at he
    rw [he]
  · rw [if_neg he]
    rw [List.reverse_append]
    rw [dropWhile_append_all _ (fun c hc => hw c (List.mem_reverse.mp hc))]

theorem jsTrim_pad {w1 w2 : List Char} (u : List Char)
    (hw1 : ∀ c ∈ w1, isWsChar c = true) (hw2 : ∀ c ∈ w2, isWsChar c = true) :
    jsTrim (w1 ++ u ++ w2) = jsTrim u := by
  rw [List.append_assoc, jsTrim_append_ws_left (u ++ w2) hw1,
    jsTrim_append_ws_right u hw2]

/-- C10 (amended): for every NON-EMPTY input `u` and whitespace paddings
`w1`, `w2`, the shorten request on `w1 ++ u ++ w2` behaves exactly like
the one on `u` (same response, same state); for the empty input the
padded and unpadded requests both fail with 400 but through different
branches (`Invalid URL` vs `Missing url`). -/
theorem claim_C10_trim (s : AppState) (codes : List (List Char)) (now : List Char)
    (u w1 w2 : List Char)
    (hw1 : ∀ c ∈ w1, isWsChar c = true) (hw2 : ∀ c ∈ w2, isWsChar c = true)
    (hu : u ≠ []) :
    postShorten s (some (w1 ++ u ++ w2)) codes now = postShorten s (some u) codes now := by
  have hne : w1 ++ u ++ w2 ≠ [] := by simp [hu]
  have htrim : jsTrim (w1 ++ u ++ w2) = jsTrim u := jsTrim_pad u hw1 hw2
  simp only [postShorten, if_neg hne, if_neg hu, htrim]

/-- Counterexample to C10 as stated: with `u = ""`, `w1 = " "`, `w2 = ""`
(whitespace padding), the padded request fails with `Invalid URL` while
the unpadded one fails with `Missing url` — not identical behavior. -/
theorem claim_C10_counterexample :
    (∀ c ∈ " ".data, isWsChar c = true) ∧
    (" ".data : List Char) = " ".data ++ "".data ++ "".data ∧
    (postShorten (initState true) (some " ".data) [] "t0".data).1 = .invalidUrl ∧
    (postShorten (initState true) (some "".data) [] "t0".data).1 = .missingUrl ∧
    (ShortenResult.invalidUrl ≠ .missingUrl) := by
  refine ⟨by decide, by decide, by decide, by decide, by decide⟩

/-- Witness for C10 (amended) at a concrete padded input. -/
theorem claim_C10_witness :
    (∀ c ∈ " ".data, isWsChar c = true) ∧
    (∀ c ∈ "\t".data, isWsChar c = true) ∧
    ("github.com".data ≠ ([] : List Char)) ∧
    postShorten (initState true) (some (" ".data ++ "github.com".data ++ "\t".data))
        ["abc123".data] "t0".data =
      postShorten (initState true) (some "github.com".data) ["abc123".data] "t0".data := by
  refine ⟨by decide, by decide, by decide, ?_⟩
  exact claim_C10_trim (initState true) ["abc123".data] "t0".data "github.com".data
    " ".data "\t".data (by decide) (by decide) (by decide)

/-! ## Claim C2: scheme filtering

`normalizeUrl` prepends `https://` to any input that does not already
start with `http://`/`https://`.  An input like `javascript:alert(1)`
then parses as host `javascript` with port `alert(1)` — an invalid port,
so the parse throws and the input is rejected.  `data:text/html,x`
is rejected the same way (port `text`).  But `ftp://example.com` becomes
`https://ftp://example.com`, which parses fine: host `ftp`, EMPTY port,
path `//example.com` — so it is ACCEPTED and stored as
`https://ftp//example.com`.  The reliable guarantee is only that every
stored URL has scheme `http` or `https`. -/

theorem normalizeUrl_some {u v : List Char} (h : normalizeUrl u = some v) :
    ∃ p : UrlParts,
      parseUrl (if hasHttpProto u = true then u else "https://".data ++ u) = some p ∧
      (p.scheme = "http".data ∨ p.scheme = "https".data) ∧ v = hrefList p := by
  simp only [normalizeUrl] at h
  cases hp : parseUrl (if hasHttpProto u = true then u else "https://".data ++ u) with
  | none => rw [hp] at h; cases h
  | some parsed =>
    rw [hp] at h
    simp only [] at h
    split at h
    · cases h
    · next hs =>
        simp only [Option.some.injEq] at h
        subst h
        refine ⟨parsed, rfl, ?_, rfl⟩
        rcases not_and_or.mp hs with h2 | h2
        · exact Or.inl (not_not.mp h2)
        · exact Or.inr (not_not.mp h2)

theorem hrefList_scheme_view (p : UrlParts) :
    ∃ r, hrefList p = p.scheme ++ [':', '/', '/'] ++ r := by
  unfold hrefList
  simp only [List.append_assoc]
  exact ⟨_, rfl⟩

/-- C2 (amended): the example inputs with schemes `javascript:` and
`data:` are rejected by `normalizeUrl`; `ftp://example.com` is NOT
rejected — it is accepted, mangled into the https URL
`https://ftp//example.com`; and in general every URL accepted (and hence
stored) by `normalizeUrl` starts with `http://` or `https://`, so no
record ever stores a `javascript:`, `data:` or `ftp:` URL. -/
theorem claim_C2_schemes :
    normalizeUrl "javascript:alert(1)".data = none ∧
    normalizeUrl "data:text/html,x".data = none ∧
    normalizeUrl "ftp://example.com".data = some "https://ftp//example.com".data ∧
    (∀ u v : List Char, normalizeUrl u = some v →
      (∃ r, v = "http://".data ++ r) ∨ (∃ r, v = "https://".data ++ r)) := by
  refine ⟨by decide, by decide, by decide, ?_⟩
  intro u v h
  obtain ⟨p, _, hs, rfl⟩ := normalizeUrl_some h
  obtain ⟨r, hr⟩ := hrefList_scheme_view p
  rcases hs with h1 | h1
  · left
    exact ⟨r, by rw [hr, h1]; simp⟩
  · right
    exact ⟨r, by rw [hr, h1]; simp⟩

/-- Counterexample to C2 as stated: `normalizeUrl` does NOT return
invalid on the `ftp:`-scheme input `ftp://example.com`. -/
theorem claim_C2_counterexample :
    normalizeUrl "ftp://example.com".data = some "https://ftp//example.com".data ∧
    normalizeUrl "ftp://example.com".data ≠ none := by
  refine ⟨by decide, by decide⟩

/-- Witness for C2 (amended), discharging the hypothesis of the general
conjunct at a concrete accepted input. -/
theorem claim_C2_witness :
    (normalizeUrl "github.com".data = some "https://github.com/".data) ∧
    ((∃ r, ("https://github.com/".data : List Char) = "http://".data ++ r) ∨
      (∃ r, ("https://github.com/".data : List Char) = "https://".data ++ r)) :=
  ⟨by decide, claim_C2_schemes.2.2.2 "github.com".data "https://github.com/".data (by decide)⟩

/-! ## Claim C8: idempotence of normalization

Strategy: every successful `parseUrl` yields well-formed components
(`WfParts`); serializing well-formed components with an `http`/`https`
scheme and reparsing is the identity; hence `normalizeUrl` is idempotent
on its accepted outputs. -/

theorem digit_toNat {c : Char} (h : c.isDigit = true) :
    48 ≤ c.toNat ∧ c.toNat ≤ 57 := by
  simp [Char.isDigit] at h
  exact ⟨h.1, h.2⟩

theorem authEnd_toNat {c : Char} (h : isAuthorityEnd c = true) :
    c.toNat = 47 ∨ c.toNat = 92 ∨ c.toNat = 63 ∨ c.toNat = 35 := by
  unfold isAuthorityEnd at h
  simp only [decide_eq_true_eq, List.mem_cons, List.not_mem_nil, or_false] at h
  rcases h with h|h|h|h <;> subst h <;> simp

theorem digit_not_authEnd {c : Char} (h : c.isDigit = true) :
    isAuthorityEnd c = false := by
  cases ha : isAuthorityEnd c
  · rfl
  · exfalso
    have h1 := digit_toNat h
    have h2 := authEnd_toNat ha
    omega

theorem digit_ne_of_toNat {c : Char} (h : c.isDigit = true) {d : Char}
    (hd : d.toNat < 48 ∨ 57 < d.toNat) : ¬(c = d) := by
  intro he
  subst he
  have := digit_toNat h
  omega

theorem not_forbidden_ne {c : Char} (h : forbiddenHostChar c = false) {d : Char}
    (hd : forbiddenHostChar d = true) : ¬(c = d) := by
  intro he
  subst he
  rw [h] at hd
  cases hd

theorem authEnd_pathEnd_slash {d : Char} (h1 : isAuthorityEnd d = true)
    (h2 : isPathEnd d = false) : isSlashChar d = true := by
  unfold isAuthorityEnd at h1
  unfold isPathEnd at h2
  unfold isSlashChar
  simp only [decide_eq_true_eq, decide_eq_false_iff_not, List.mem_cons,
    List.not_mem_nil, or_false] at h1 h2 ⊢
  tauto

theorem bslashFix_slash {d : Char} (h : isSlashChar d = true) : bslashFix d = '/' := by
  unfold isSlashChar at h
  simp only [decide_eq_true_eq, List.mem_cons, List.not_mem_nil, or_false] at h
  rcases h with h | h <;> subst h <;> rfl

theorem parsePort_wf {scheme rest port : List Char}
    (h : parsePort scheme rest = some port) :
    (∀ c ∈ port, c.isDigit = true) ∧ digitsVal port ≤ 65535 ∧
    (port ≠ [] → defaultPort scheme ≠ some (digitsVal port)) ∧
    stripZeros port = port := by
  have hnil : (∀ c ∈ ([] : List Char), c.isDigit = true) ∧ digitsVal [] ≤ 65535 ∧
      (([] : List Char) ≠ [] → defaultPort scheme ≠ some (digitsVal [])) ∧
      stripZeros [] = [] := by
    refine ⟨by simp, by decide, by simp, by decide⟩
  unfold parsePort at h
  split at h
  · simp only [Option.some.injEq] at h
    subst h
    exact hnil
  · next ds =>
    split at h
    · next hall =>
      split at h
      · simp only [Option.some.injEq] at h
        subst h
        exact hnil
      · next hne =>
        split at h
        · next hle =>
          split at h
          · simp only [Option.some.injEq] at h
            subst h
            exact hnil
          · next hdef =>
            simp only [Option.some.injEq] at h
            subst h
            have hdig := List.all_eq_true.mp hall
            refine ⟨mem_stripZeros_digit hdig, ?_, ?_, stripZeros_idem ds⟩
            · rw [digitsVal_stripZeros]
              exact hle
            · intro _
              rw [digitsVal_stripZeros]
              exact hdef
        · cases h
    · cases h
  · cases h

theorem parseHostPort_wf {scheme hostport : List Char} {hp : List Char × List Char}
    (h : parseHostPort scheme hostport = some hp) :
    hp.1 ≠ [] ∧ (∀ c ∈ hp.1, forbiddenHostChar c = false) ∧
    hp.1.map Char.toLower = hp.1 ∧
    (∀ c ∈ hp.2, c.isDigit = true) ∧ digitsVal hp.2 ≤ 65535 ∧
    (hp.2 ≠ [] → defaultPort scheme ≠ some (digitsVal hp.2)) ∧
    stripZeros hp.2 = hp.2 := by
  unfold parseHostPort at h
  simp only [] at h
  split at h
  · cases h
  · split at h
    · cases h
    · next hne hforb =>
      cases hpp : parsePort scheme (hostport.dropWhile (fun c => c ≠ ':')) with
      | none => rw [hpp] at h; cases h
      | some pr =>
        rw [hpp] at h
        simp only [Option.some.injEq] at h
        subst h
        obtain ⟨hd, hle, hdef, hcanon⟩ := parsePort_wf hpp
        have hmemf : ∀ c ∈ hostport.takeWhile (fun c => c ≠ ':'), forbiddenHostChar c = false := by
          intro c hc
          have := List.any_eq_false.mp (Bool.of_not_eq_true hforb) c hc
          simpa using this
        refine ⟨?_, ?_, map_toLower_idem _, hd, hle, hdef, hcanon⟩
        · simp only [ne_eq, List.map_eq_nil_iff]
          exact hne
        · intro c hc
          obtain ⟨c0, hc0, rfl⟩ := List.mem_map.mp hc
          exact not_forbidden_toLower c0 (hmemf c0 hc0)

theorem parseQF_query_wf (l : List Char) :
    ∀ q, (parseQF l).1 = some q → ∀ c ∈ q, ¬(c = '#') := by
  intro q hq c hc
  unfold parseQF at hq
  split at hq
  · simp only [Option.some.injEq] at hq
    subst hq
    have := List.mem_takeWhile_imp hc
    simpa using this
  · cases hq
  · cases hq

theorem parsePathQF_wf (l : List Char)
    (hl : ∀ d r, l = d :: r → isAuthorityEnd d = true) :
    (∃ r, (parsePathQF l).1 = '/' :: r) ∧
    (∀ c ∈ (parsePathQF l).1, isPathEnd c = false ∧ ¬(c = '\\')) ∧
    (∀ q, (parsePathQF l).2.1 = some q → ∀ c ∈ q, ¬(c = '#')) := by
  have hchars : ∀ c ∈ (l.takeWhile (fun c => !isPathEnd c)).map bslashFix,
      isPathEnd c = false ∧ ¬(c = '\\') := by
    intro c hc
    obtain ⟨c0, hc0, rfl⟩ := List.mem_map.mp hc
    have hpe : isPathEnd c0 = false := by
      have := List.mem_takeWhile_imp hc0
      simpa using this
    by_cases hb : c0 = '\\'
    · subst hb
      refine ⟨by decide, by decide⟩
    · unfold bslashFix
      rw [if_neg hb]
      exact ⟨hpe, hb⟩
  unfold parsePathQF
  simp only []
  constructor
  · split
    · exact ⟨[], rfl⟩
    · next hp =>
      cases hll : l with
      | nil =>
        rw [hll] at hp
        exact absurd rfl hp
      | cons d r =>
        have hd := hl d r hll
        rw [hll] at hp
        by_cases hpe : isPathEnd d = true
        · exfalso
          apply hp
          rw [List.takeWhile_cons_of_neg (by simp [hpe]), List.map_nil]
        · rw [List.takeWhile_cons_of_pos (by simp [Bool.of_not_eq_true hpe]), List.map_cons,
            bslashFix_slash (authEnd_pathEnd_slash hd (Bool.of_not_eq_true hpe))]
          exact ⟨_, rfl⟩
  constructor
  · intro c hc
    split at hc
    · simp only [List.mem_singleton] at hc
      subst hc
      exact ⟨by decide, by decide⟩
    · exact hchars c hc
  · exact parseQF_query_wf _

theorem parseUrl_wf {s : List Char} {p : UrlParts} (h : parseUrl s = some p) :
    WfParts p := by
  unfold parseUrl at h
  split at h
  · next c cs rest1 heqt heqd =>
    split at h
    · next halpha =>
      simp only [] at h
      set auth := (rest1.dropWhile isSlashChar).takeWhile (fun a => !isAuthorityEnd a)
        with hauth
      set rest3 := (rest1.dropWhile isSlashChar).dropWhile (fun a => !isAuthorityEnd a)
        with hrest3
      have hl : ∀ d r, rest3 = d :: r → isAuthorityEnd d = true := by
        intro d r hdr
        have hdr2 : (rest1.dropWhile isSlashChar).dropWhile (fun a => !isAuthorityEnd a) =
            d :: r := by
          rw [← hrest3]
          exact hdr
        have := dropWhile_head_false hdr2
        simpa using this
      obtain ⟨hpath, hpathc, hquery⟩ := parsePathQF_wf rest3 hl
      cases hsp : splitLast '@' auth with
      | some ab =>
        have hsu : splitUserinfo auth = ab := by
          unfold splitUserinfo
          rw [hsp]
        rw [hsu] at h
        cases hhp : parseHostPort ((c :: cs).map Char.toLower) ab.2 with
        | none =>
          rw [hhp] at h
          cases h
        | some hp =>
          rw [hhp] at h
          simp only [Option.some.injEq] at h
          subst h
          obtain ⟨hh1, hh2, hh3, hh4, hh5, hh6, hh7⟩ := parseHostPort_wf hhp
          refine ⟨?_, hh1, hh2, hh3, hh4, hh5, hh6, hh7, hpath, hpathc, hquery⟩
          intro x hx
          have hxa : x ∈ auth := by
            rw [(splitLast_eq_some hsp).1]
            exact List.mem_append.mpr (Or.inl hx)
          rw [hauth] at hxa
          have := List.mem_takeWhile_imp hxa
          simpa using this
      | none =>
        have hsu : splitUserinfo auth = ([], auth) := by
          unfold splitUserinfo
          rw [hsp]
        rw [hsu] at h
        cases hhp : parseHostPort ((c :: cs).map Char.toLower) auth with
        | none =>
          rw [hhp] at h
          cases h
        | some hp =>
          rw [hhp] at h
          simp only [Option.some.injEq] at h
          subst h
          obtain ⟨hh1, hh2, hh3, hh4, hh5, hh6, hh7⟩ := parseHostPort_wf hhp
          exact ⟨by simp, hh1, hh2, hh3, hh4, hh5, hh6, hh7, hpath, hpathc, hquery⟩
    · cases h
  · cases h

theorem takeWhile_all {α : Type} {p : α → Bool} {l : List α}
    (h : ∀ c ∈ l, p c = true) : l.takeWhile p = l := by
  induction l with
  | nil => rfl
  | cons x t ih =>
    rw [List.takeWhile_cons_of_pos (h x (by simp))]
    rw [ih (fun c hc => h c (by simp [hc]))]

theorem not_slash_of_not_authEnd {c : Char} (h : isAuthorityEnd c = false) :
    isSlashChar c = false := by
  cases hs : isSlashChar c
  · rfl
  · rw [slash_is_authEnd c hs] at h
    cases h

theorem parseQF_nil : parseQF [] = (none, none) := rfl

theorem parseQF_qmark (r : List Char) :
    parseQF ('?' :: r) =
      (some (r.takeWhile (fun c => c ≠ '#')), parseFrag (r.dropWhile (fun c => c ≠ '#'))) := rfl

theorem parseQF_hash (r : List Char) : parseQF ('#' :: r) = (none, some r) := rfl

theorem parsePathQF_roundtrip {path : List Char} {q f : Option (List Char)}
    (hpathh : ∃ r, path = '/' :: r)
    (hpathc : ∀ c ∈ path, isPathEnd c = false ∧ ¬(c = '\\'))
    (hq : ∀ q0, q = some q0 → ∀ c ∈ q0, ¬(c = '#')) :
    parsePathQF (path ++ (queryPart q ++ fragPart f)) = (path, q, f) := by
  have hpathp : ∀ c ∈ path, (!isPathEnd c) = true := by
    intro c hc
    simp [(hpathc c hc).1]
  have hmapid : path.map bslashFix = path := by
    have : path.map bslashFix = path.map id := by
      apply List.map_congr_left
      intro c hc
      unfold bslashFix
      rw [if_neg (hpathc c hc).2]
      rfl
    rw [this, List.map_id]
  obtain ⟨pr, hpr⟩ := hpathh
  have hpathne : ¬(path = []) := by
    rw [hpr]
    simp
  unfold parsePathQF
  rw [takeWhile_append_all _ hpathp, dropWhile_append_all _ hpathp]
  cases q with
  | none =>
    cases f with
    | none =>
      simp only [queryPart, fragPart, List.append_nil]
      rw [List.takeWhile_nil, List.dropWhile_nil, List.append_nil, hmapid,
        if_neg hpathne, parseQF_nil]
    | some f0 =>
      simp only [queryPart, fragPart, List.nil_append]
      rw [List.takeWhile_cons_of_neg (by decide), List.dropWhile_cons_of_neg (by decide),
        List.append_nil, hmapid, if_neg hpathne, parseQF_hash]
  | some q0 =>
    have hq0 : ∀ c ∈ q0, (decide (c ≠ '#')) = true := by
      intro c hc
      simpa using hq q0 rfl c hc
    cases f with
    | none =>
      simp only [queryPart, fragPart, List.append_nil]
      rw [List.takeWhile_cons_of_neg (by decide), List.dropWhile_cons_of_neg (by decide),
        List.append_nil, hmapid, if_neg hpathne, parseQF_qmark,
        takeWhile_all hq0, dropWhile_all_nil hq0]
      rfl
    | some f0 =>
      simp only [queryPart, fragPart]
      rw [show ('?' :: q0) ++ ('#' :: f0) = '?' :: (q0 ++ '#' :: f0) from rfl]
      rw [List.takeWhile_cons_of_neg (by decide), List.dropWhile_cons_of_neg (by decide),
        List.append_nil, hmapid, if_neg hpathne, parseQF_qmark,
        takeWhile_append_all _ hq0, dropWhile_append_all _ hq0,
        List.takeWhile_cons_of_neg (by decide), List.dropWhile_cons_of_neg (by decide),
        List.append_nil]
      rfl

theorem parsePort_colon {scheme port : List Char}
    (hpd : ∀ c ∈ port, c.isDigit = true) (hple : digitsVal port ≤ 65535)
    (hpne : ¬(port = [])) (hpdef : defaultPort scheme ≠ some (digitsVal port))
    (hpcanon : stripZeros port = port) :
    parsePort scheme (':' :: port) = some port := by
  show (if port.all Char.isDigit = true then
      if port = [] then some []
      else if digitsVal port ≤ 65535 then
        if defaultPort scheme = some (digitsVal port) then some []
        else some (stripZeros port)
      else none
    else none) = some port
  rw [if_pos (List.all_eq_true.mpr hpd), if_neg hpne, if_pos hple, if_neg hpdef, hpcanon]

theorem parseHostPort_roundtrip {scheme host port : List Char}
    (hhne : host ≠ []) (hhforb : ∀ c ∈ host, forbiddenHostChar c = false)
    (hhlow : host.map Char.toLower = host)
    (hpd : ∀ c ∈ port, c.isDigit = true) (hple : digitsVal port ≤ 65535)
    (hpdef : port ≠ [] → defaultPort scheme ≠ some (digitsVal port))
    (hpcanon : stripZeros port = port) :
    parseHostPort scheme (host ++ portPart port) = some (host, port) := by
  have hhcolon : ∀ c ∈ host, (decide (c ≠ ':')) = true := by
    intro c hc
    simp only [decide_eq_true_eq]
    exact not_forbidden_ne (hhforb c hc) (by decide)
  have hany : ¬(host.any forbiddenHostChar = true) := by
    rw [List.any_eq_false.mpr (fun x hx => by simp [hhforb x hx])]
    simp
  unfold parseHostPort
  by_cases hport : port = []
  · rw [hport]
    rw [show portPart [] = [] from rfl, List.append_nil]
    rw [takeWhile_all hhcolon, dropWhile_all_nil hhcolon]
    simp only []
    rw [if_neg hhne, if_neg hany]
    rw [show parsePort scheme [] = some [] from rfl]
    rw [hhlow]
  · rw [show portPart port = ':' :: port from if_neg hport]
    rw [takeWhile_append_all _ hhcolon, dropWhile_append_all _ hhcolon,
      List.takeWhile_cons_of_neg (by decide), List.dropWhile_cons_of_neg (by decide),
      List.append_nil]
    simp only []
    rw [if_neg hhne, if_neg hany]
    rw [parsePort_colon hpd hple hport (hpdef hport) hpcanon]
    rw [hhlow]

theorem splitUserinfo_roundtrip {ui host port : List Char}
    (hui : ∀ c ∈ ui, isAuthorityEnd c = false)
    (hhforb : ∀ c ∈ host, forbiddenHostChar c = false)
    (hpd : ∀ c ∈ port, c.isDigit = true) :
    splitUserinfo (uinfoPart ui ++ (host ++ portPart port)) =
      (ui, host ++ portPart port) := by
  have hnoat : '@' ∉ host ++ portPart port := by
    intro hmem
    rcases List.mem_append.mp hmem with hm | hm
    · exact not_forbidden_ne (hhforb _ hm) (by decide) rfl
    · unfold portPart at hm
      split at hm
      · simp at hm
      · rcases List.mem_cons.mp hm with he | hm2
        · exact absurd he (by decide)
        · exact digit_ne_of_toNat (hpd _ hm2) (by decide) rfl
  unfold splitUserinfo uinfoPart
  by_cases huie : ui = []
  · rw [if_pos huie, List.nil_append]
    rw [splitLast_none_of_not_mem hnoat]
    rw [huie]
  · rw [if_neg huie, List.append_assoc]
    rw [show (['@'] ++ (host ++ portPart port)) = '@' :: (host ++ portPart port) from rfl]
    rw [splitLast_append_of_not_mem ui hnoat]

theorem parseUrl_hrefList_gen (c : Char) (cs ui host port path : List Char)
    (q f : Option (List Char))
    (halpha : c.isAlpha = true)
    (hschchar : ∀ x ∈ c :: cs, isSchemeChar x = true)
    (hschlow : (c :: cs).map Char.toLower = c :: cs)
    (hui : ∀ x ∈ ui, isAuthorityEnd x = false)
    (hhne : host ≠ []) (hhforb : ∀ x ∈ host, forbiddenHostChar x = false)
    (hhlow : host.map Char.toLower = host)
    (hpd : ∀ x ∈ port, x.isDigit = true) (hple : digitsVal port ≤ 65535)
    (hpdef : port ≠ [] → defaultPort (c :: cs) ≠ some (digitsVal port))
    (hpcanon : stripZeros port = port)
    (hpathh : ∃ r, path = '/' :: r)
    (hpathc : ∀ x ∈ path, isPathEnd x = false ∧ ¬(x = '\\'))
    (hq : ∀ q0, q = some q0 → ∀ x ∈ q0, ¬(x = '#')) :
    parseUrl (hrefList ⟨c :: cs, ui, host, port, path, q, f⟩) =
      some ⟨c :: cs, ui, host, port, path, q, f⟩ := by
  obtain ⟨pr, hpr⟩ := hpathh
  have hschtail : ∀ x ∈ cs, isSchemeChar x = true := by
    intro x hx
    exact hschchar x (by simp [hx])
  have hA : ∀ x ∈ uinfoPart ui ++ (host ++ portPart port), isAuthorityEnd x = false := by
    intro x hx
    rcases List.mem_append.mp hx with hx | hx
    · unfold uinfoPart at hx
      split at hx
      · simp at hx
      · rcases List.mem_append.mp hx with hx2 | hx2
        · exact hui x hx2
        · simp only [List.mem_singleton] at hx2
          subst hx2
          decide
    · rcases List.mem_append.mp hx with hx2 | hx2
      · exact not_authEnd_of_not_forbidden x (hhforb x hx2)
      · unfold portPart at hx2
        split at hx2
        · simp at hx2
        · rcases List.mem_cons.mp hx2 with he | hm
          · subst he
            decide
          · exact digit_not_authEnd (hpd x hm)
  have hAp : ∀ x ∈ uinfoPart ui ++ (host ++ portPart port), (!isAuthorityEnd x) = true := by
    intro x hx
    simp [hA x hx]
  -- serialize and normalize associativity
  show parseUrl ((c :: cs) ++ [':', '/', '/'] ++ uinfoPart ui ++ host ++ portPart port ++
      path ++ queryPart q ++ fragPart f) = _
  rw [show (c :: cs) ++ [':', '/', '/'] ++ uinfoPart ui ++ host ++ portPart port ++
      path ++ queryPart q ++ fragPart f =
      c :: (cs ++ (':' :: '/' :: '/' :: ((uinfoPart ui ++ (host ++ portPart port)) ++
        (path ++ (queryPart q ++ fragPart f))))) by
    simp [List.append_assoc]]
  unfold parseUrl
  rw [List.takeWhile_cons_of_pos (hschchar c (by simp)),
    takeWhile_append_all _ hschtail,
    List.takeWhile_cons_of_neg (by decide), List.append_nil,
    List.dropWhile_cons_of_pos (hschchar c (by simp)),
    dropWhile_append_all _ hschtail,
    List.dropWhile_cons_of_neg (by decide)]
  simp only []
  rw [if_pos halpha]
  rw [hschlow]
  rw [List.dropWhile_cons_of_pos (by decide), List.dropWhile_cons_of_pos (by decide)]
  -- the remaining authority ++ path ++ query ++ fragment starts with a
  -- non-slash character, so the slash-skipping stops here
  have hds : ((uinfoPart ui ++ (host ++ portPart port)) ++
      (path ++ (queryPart q ++ fragPart f))).dropWhile isSlashChar =
      (uinfoPart ui ++ (host ++ portPart port)) ++ (path ++ (queryPart q ++ fragPart f)) := by
    cases hAe : uinfoPart ui ++ (host ++ portPart port) with
    | nil =>
      exfalso
      rcases List.append_eq_nil.mp hAe with ⟨_, h2⟩
      rcases List.append_eq_nil.mp h2 with ⟨h3, _⟩
      exact hhne h3
    | cons a as =>
      have ha : isAuthorityEnd a = false := by
        apply hA
        rw [hAe]
        simp
      rw [List.cons_append, List.dropWhile_cons_of_neg (by simp [not_slash_of_not_authEnd ha])]
  rw [hds]
  rw [takeWhile_append_all _ hAp, dropWhile_append_all _ hAp]
  have htkp : (path ++ (queryPart q ++ fragPart f)).takeWhile (fun a => !isAuthorityEnd a) =
      [] := by
    rw [hpr, List.cons_append, List.takeWhile_cons_of_neg (by decide)]
  have hdwp : (path ++ (queryPart q ++ fragPart f)).dropWhile (fun a => !isAuthorityEnd a) =
      path ++ (queryPart q ++ fragPart f) := by
    conv_lhs => rw [hpr, List.cons_append]
    rw [List.dropWhile_cons_of_neg (by decide), ← List.cons_append, ← hpr]
  rw [htkp, List.append_nil, hdwp]
  rw [splitUserinfo_roundtrip hui hhforb hpd]
  simp only []
  rw [parseHostPort_roundtrip hhne hhforb hhlow hpd hple hpdef hpcanon]
  simp only []
  rw [parsePathQF_roundtrip ⟨pr, hpr⟩ hpathc hq]

theorem parseUrl_hrefList {p : UrlParts} (hwf : WfParts p)
    (hs : p.scheme = "http".data ∨ p.scheme = "https".data) :
    parseUrl (hrefList p) = some p := by
  obtain ⟨sch, ui, host, port, path, q, f⟩ := p
  obtain ⟨hui, hhne, hhforb, hhlow, hpd, hple, hpdef, hpcanon, hpathh, hpathc, hq⟩ := hwf
  simp only [] at hs hpdef
  rcases hs with h | h <;> subst h <;>
    exact parseUrl_hrefList_gen _ _ _ _ _ _ _ _ (by decide) (by decide) (by decide)
      hui hhne hhforb hhlow hpd hple hpdef hpcanon hpathh hpathc hq

theorem ciStartsWith_self_append (a r : List Char) : ciStartsWith a (a ++ r) = true := by
  induction a with
  | nil => rfl
  | cons x t ih =>
    unfold ciStartsWith
    simp [ih]

theorem hasHttpProto_hrefList {p : UrlParts}
    (hs : p.scheme = "http".data ∨ p.scheme = "https".data) :
    hasHttpProto (hrefList p) = true := by
  obtain ⟨r, hr⟩ := hrefList_scheme_view p
  unfold hasHttpProto
  rcases hs with h | h
  · rw [hr, h]
    rw [show ("http".data ++ [':', '/', '/'] ++ r) = "http://".data ++ r by simp]
    rw [ciStartsWith_self_append]
    rfl
  · rw [hr, h]
    rw [show ("https".data ++ [':', '/', '/'] ++ r) = "https://".data ++ r by simp]
    rw [ciStartsWith_self_append]
    simp

/-- C8: `normalizeUrl` is idempotent on its accepted outputs — whenever
it accepts `u` and returns `v`, it also accepts `v` and returns `v`
unchanged. -/
theorem claim_C8_normalize_idem (u v : List Char)
    (h : normalizeUrl u = some v) : normalizeUrl v = some v := by
  obtain ⟨p, hparse, hs, rfl⟩ := normalizeUrl_some h
  have hwf := parseUrl_wf hparse
  have hproto := hasHttpProto_hrefList hs
  have hrt : parseUrl (hrefList p) = some p := parseUrl_hrefList hwf hs
  show normalizeUrl (hrefList p) = some (hrefList p)
  unfold normalizeUrl
  rw [if_pos hproto]
  simp only []
  rw [hrt]
  simp only []
  rw [if_neg]
  intro ⟨h1, h2⟩
  rcases hs with h | h
  · exact h1 h
  · exact h2 h

/-- Witness for C8: normalizing `github.com` and re-normalizing the
result. -/
theorem claim_C8_witness :
    normalizeUrl "github.com".data = some "https://github.com/".data ∧
    normalizeUrl "https://github.com/".data = some "https://github.com/".data :=
  ⟨by decide, claim_C8_normalize_idem "github.com".data "https://github.com/".data (by decide)⟩

end UrlShortener
